import Mathlib

/-!
Shallow embedding of `src/app/model/calendar.py` (CalendarAppChallenge).

Python `time` values are minutes after midnight (`Nat`, comparison of
`datetime.time` is lexicographic on (hour, minute), which coincides with
comparison of minute counts).  Python `date` values are opaque day numbers
(`Int`).  Python `dict`s are insertion-ordered association lists: updating an
existing key keeps its position, inserting a new key appends at the end.

The helpers of `app.services.util` are not part of `src/`.
Modelled from the spec: `reminder_not_found_error`, `slot_not_available_error`,
`event_not_found_error` and `date_lower_than_today_error` are "error signals
... Each aborts the in-progress operation immediately", i.e. they raise.  We
embed raising as returning `some err` next to the state reached so far (a
Python exception propagates but every mutation already performed stays).
`generate_unique_id` is "produces a globally unique identifier": the fresh id
chosen by it is passed to `Calendar.add_event` as the explicit argument
`newId`, and the reachability relation below records its uniqueness contract.
`datetime.now().date()` is passed as the explicit argument `today`.
-/

namespace CalendarApp

abbrev Time := Nat

abbrev Date := Int

abbrev EventId := String

inductive CalError where
  | reminderNotFound
  | slotNotAvailable
  | eventNotFound
  | dateLowerThanToday
deriving DecidableEq, Repr

/-- `@dataclass Reminder` (the `datetime` is an opaque timestamp). -/
structure Reminder where
  date_time : Nat
  type : String
deriving DecidableEq, Repr

/-- `@dataclass Event`. -/
structure Event where
  title : String
  description : String
  date_ : Date
  start_at : Time
  end_at : Time
  id : EventId
  reminders : List Reminder
deriving DecidableEq, Repr

/-- `Event.add_reminder`: `self.reminders.append(Reminder(date_time, type_))`. -/
def Event.add_reminder (ev : Event) (date_time : Nat) (type_ : String) : Event :=
  { ev with reminders := ev.reminders ++ [⟨date_time, type_⟩] }

/-- `Event.delete_reminder`: `del self.reminders[i]` when `0 <= i < len`,
otherwise `reminder_not_found_error()`. -/
def Event.delete_reminder (ev : Event) (reminder_index : Int) :
    Event × Option CalError :=
  if 0 ≤ reminder_index ∧ reminder_index < (ev.reminders.length : Int) then
    ({ ev with reminders := ev.reminders.eraseIdx reminder_index.toNat }, none)
  else
    (ev, some .reminderNotFound)

/-- One iteration-ordered slot map: Python `Dict[time, Optional[str]]`. -/
abbrev Slots := List (Time × Option EventId)

/-- `Day._init_slots`: `slot_time = time(0,0); while slot_time < time(23,45):
slots[slot_time] = None; slot_time = (combine(today, slot_time)+15min).time()`.
`time(23,45)` is minute 1425; the `datetime` round trip adds 15 minutes modulo
one day (1440 minutes).  The loop performs exactly 95 iterations, so a fuel of
96 is enough to run it to completion. -/
def initSlotsAux : Nat → Time → Slots
  | 0, _ => []
  | fuel + 1, t =>
    if t < 1425 then (t, none) :: initSlotsAux fuel ((t + 15) % 1440) else []

def initSlots : Slots := initSlotsAux 96 0

structure Day where
  date_ : Date
  slots : Slots
deriving DecidableEq, Repr

/-- `Day.__init__`. -/
def Day.new (date_ : Date) : Day := ⟨date_, initSlots⟩

/-- The loop body of `Day.add_event`: for each slot in iteration order with
`start_at <= slot < end_at`, raise `SlotNotAvailable` if the slot is occupied
(`is not None`), else assign `event_id`; on a raise, later slots are left
untouched while earlier assignments stay. -/
def addSlotsLoop (event_id : EventId) (start_at end_at : Time) :
    Slots → Slots × Option CalError
  | [] => ([], none)
  | (t, v) :: rest =>
    if start_at ≤ t ∧ t < end_at then
      match v with
      | some w => ((t, some w) :: rest, some .slotNotAvailable)
      | none =>
        let r := addSlotsLoop event_id start_at end_at rest
        ((t, some event_id) :: r.1, r.2)
    else
      let r := addSlotsLoop event_id start_at end_at rest
      ((t, v) :: r.1, r.2)

def Day.add_event (d : Day) (event_id : EventId) (start_at end_at : Time) :
    Day × Option CalError :=
  let r := addSlotsLoop event_id start_at end_at d.slots
  ({ d with slots := r.1 }, r.2)

/-- `Day.delete_event`: clear every slot holding `event_id`; if none did,
`event_not_found_error()`. -/
def Day.delete_event (d : Day) (event_id : EventId) : Day × Option CalError :=
  let slots' := d.slots.map fun p => if p.2 = some event_id then (p.1, none) else p
  let deleted := d.slots.any fun p => p.2 = some event_id
  ({ d with slots := slots' }, if deleted then none else some .eventNotFound)

/-- Python truthiness of an `Optional[str]`: `None` and `""` are falsy. -/
def pyTruthy : Option EventId → Bool
  | none => false
  | some s => !s.isEmpty

/-- The second loop of `Day.update_event`: for each in-range slot, raise
`SlotNotAvailable` if the slot value is truthy (`if self.slots[slot]:`),
else assign `event_id`. -/
def updateSlotsLoop (event_id : EventId) (start_at end_at : Time) :
    Slots → Slots × Option CalError
  | [] => ([], none)
  | (t, v) :: rest =>
    if start_at ≤ t ∧ t < end_at then
      if pyTruthy v then
        ((t, v) :: rest, some .slotNotAvailable)
      else
        let r := updateSlotsLoop event_id start_at end_at rest
        ((t, some event_id) :: r.1, r.2)
    else
      let r := updateSlotsLoop event_id start_at end_at rest
      ((t, v) :: r.1, r.2)

/-- `Day.update_event`: first clear every slot equal to `event_id`
(no error if none), then re-book the range with the truthiness check. -/
def Day.update_event (d : Day) (event_id : EventId) (start_at end_at : Time) :
    Day × Option CalError :=
  let cleared := d.slots.map fun p => if p.2 = some event_id then (p.1, none) else p
  let r := updateSlotsLoop event_id start_at end_at cleared
  ({ d with slots := r.1 }, r.2)

/-- Lookup in a Python dict modelled as an association list. -/
def dictGet {α β : Type} [DecidableEq α] : List (α × β) → α → Option β
  | [], _ => none
  | p :: rest, k => if p.1 = k then some p.2 else dictGet rest k

/-- `m[k] = v` on a Python dict: replace in place if the key exists
(keeping its position), otherwise append at the end. -/
def dictSet {α β : Type} [DecidableEq α] (m : List (α × β)) (k : α) (v : β) :
    List (α × β) :=
  if (dictGet m k).isSome then
    m.map fun p => if p.1 = k then (p.1, v) else p
  else
    m ++ [(k, v)]

/-- `m.pop(k)` / `del m[k]` on a Python dict (the key part only). -/
def dictRemove {α β : Type} [DecidableEq α] (m : List (α × β)) (k : α) :
    List (α × β) :=
  m.filter fun p => ¬ p.1 = k

structure Calendar where
  days : List (Date × Day)
  events : List (EventId × Event)
deriving DecidableEq, Repr

/-- `Calendar.__init__`. -/
def Calendar.empty : Calendar := ⟨[], []⟩

/-- The `Day` object `Calendar.add_event` books into: the existing
`self.days[date_]`, or the `Day(date_)` freshly inserted when absent. -/
def Calendar.dayFor (c : Calendar) (date_ : Date) : Day :=
  match dictGet c.days date_ with
  | some d => d
  | none => Day.new date_

/-- `Calendar.add_event`.  Returns (state, raised error, returned id).  On
`DateLowerThanToday` nothing is touched; on `SlotNotAvailable` the (possibly
freshly inserted) `Day` keeps the partial assignments already made and the
event is NOT registered in `events` (the registration line is never reached). -/
def Calendar.add_event (c : Calendar) (today : Date) (newId : EventId)
    (title description : String) (date_ : Date) (start_at end_at : Time) :
    Calendar × Option CalError × Option EventId :=
  if date_ < today then
    (c, some .dateLowerThanToday, none)
  else
    let event : Event := ⟨title, description, date_, start_at, end_at, newId, []⟩
    let r := (c.dayFor date_).add_event newId start_at end_at
    let days' := dictSet c.days date_ r.1
    match r.2 with
    | some er => ({ c with days := days' }, some er, none)
    | none => (⟨days', dictSet c.events newId event⟩, none, some newId)

/-- `Calendar.add_reminder`. -/
def Calendar.add_reminder (c : Calendar) (event_id : EventId) (date_time : Nat)
    (type_ : String) : Calendar × Option CalError :=
  match dictGet c.events event_id with
  | none => (c, some .eventNotFound)
  | some ev =>
    ({ c with events := dictSet c.events event_id (ev.add_reminder date_time type_) },
     none)

/-- `Calendar.find_available_slots`. -/
def Calendar.find_available_slots (c : Calendar) (date_ : Date) : List Time :=
  match dictGet c.days date_ with
  | some day => (day.slots.filter fun p => p.2 = none).map Prod.fst
  | none => []

/-- The loop of `Calendar.delete_event`: clear the first `Day` whose slot
values contain `event_id`, then `break`. -/
def deleteDaysLoop (event_id : EventId) :
    List (Date × Day) → List (Date × Day) × Option CalError
  | [] => ([], none)
  | (dt, day) :: rest =>
    if day.slots.any (fun p => p.2 = some event_id) then
      let r := day.delete_event event_id
      ((dt, r.1) :: rest, r.2)
    else
      let r := deleteDaysLoop event_id rest
      ((dt, day) :: r.1, r.2)

/-- `Calendar.delete_event`. -/
def Calendar.delete_event (c : Calendar) (event_id : EventId) :
    Calendar × Option CalError :=
  if (dictGet c.events event_id).isNone then
    (c, some .eventNotFound)
  else
    let events' := dictRemove c.events event_id
    let r := deleteDaysLoop event_id c.days
    (⟨r.1, events'⟩, r.2)

/-- The trailing loop of `Calendar.update_event` in the same-date case: for
every `Day` whose slot values contain `event_id`, run `day.delete_event` then
`day.update_event`; a raise aborts the loop, keeping the days already
processed. -/
def updateDaysLoop (event_id : EventId) (start_at end_at : Time) :
    List (Date × Day) → List (Date × Day) × Option CalError
  | [] => ([], none)
  | (dt, day) :: rest =>
    if day.slots.any (fun p => p.2 = some event_id) then
      match day.delete_event event_id with
      | (day1, some er) => ((dt, day1) :: rest, some er)
      | (day1, none) =>
        match day1.update_event event_id start_at end_at with
        | (day2, some er) => ((dt, day2) :: rest, some er)
        | (day2, none) =>
          let r := updateDaysLoop event_id start_at end_at rest
          ((dt, day2) :: r.1, r.2)
    else
      let r := updateDaysLoop event_id start_at end_at rest
      ((dt, day) :: r.1, r.2)

/-- `Calendar.update_event`.  In the new-date case the trailing loop's guard
`not is_new_date and ...` is always false, so it is a no-op and is elided. -/
def Calendar.update_event (c : Calendar) (event_id : EventId)
    (title description : String) (date_ : Date) (start_at end_at : Time) :
    Calendar × Option CalError :=
  match dictGet c.events event_id with
  | none => (c, some .eventNotFound)
  | some ev =>
    if ev.date_ ≠ date_ then
      match c.delete_event event_id with
      | (c1, some er) => (c1, some er)
      | (c1, none) =>
        let event : Event := ⟨title, description, date_, start_at, end_at, event_id, []⟩
        let events2 := dictSet c1.events event_id event
        let r := (c1.dayFor date_).add_event event_id start_at end_at
        (⟨dictSet c1.days date_ r.1, events2⟩, r.2)
    else
      let ev' := { ev with title := title, description := description,
                           date_ := date_, start_at := start_at, end_at := end_at }
      let events2 := dictSet c.events event_id ev'
      let r := updateDaysLoop event_id start_at end_at c.days
      (⟨r.1, events2⟩, r.2)

/-- `Calendar.delete_reminder`. -/
def Calendar.delete_reminder (c : Calendar) (event_id : EventId)
    (reminder_index : Int) : Calendar × Option CalError :=
  match dictGet c.events event_id with
  | none => (c, some .eventNotFound)
  | some ev =>
    let r := ev.delete_reminder reminder_index
    ({ c with events := dictSet c.events event_id r.1 }, r.2)

/-- `Calendar.list_reminders`. -/
def Calendar.list_reminders (c : Calendar) (event_id : EventId) :
    Option (List Reminder) × Option CalError :=
  match dictGet c.events event_id with
  | none => (none, some .eventNotFound)
  | some ev => (some ev.reminders, none)

/-! ### The public operations as a step relation -/

inductive COp where
  | addEvent (today : Date) (newId : EventId) (title description : String)
      (date_ : Date) (start_at end_at : Time)
  | addReminder (event_id : EventId) (date_time : Nat) (type_ : String)
  | updateEvent (event_id : EventId) (title description : String)
      (date_ : Date) (start_at end_at : Time)
  | deleteEvent (event_id : EventId)
  | deleteReminder (event_id : EventId) (reminder_index : Int)
deriving DecidableEq, Repr

def applyOp (c : Calendar) : COp → Calendar × Option CalError
  | .addEvent today newId title description date_ s e =>
    let r := c.add_event today newId title description date_ s e
    (r.1, r.2.1)
  | .addReminder event_id dt ty => c.add_reminder event_id dt ty
  | .updateEvent event_id title description date_ s e =>
    c.update_event event_id title description date_ s e
  | .deleteEvent event_id => c.delete_event event_id
  | .deleteReminder event_id i => c.delete_reminder event_id i

/-- Run a sequence of operations; a raised error propagates to the caller but
the Calendar object keeps every mutation made before the raise, so the next
operation runs on that state. -/
def runOps (c : Calendar) : List COp → Calendar
  | [] => c
  | op :: rest => runOps (applyOp c op).1 rest

/-- The uniqueness contract of `generate_unique_id` for the id consumed by an
`add_event` call: the generated id is fresh, in particular not registered. -/
def opFresh (c : Calendar) : COp → Prop
  | .addEvent _ newId _ _ _ _ _ => dictGet c.events newId = none
  | _ => True

/-- States reachable from the empty calendar by public operations that all
succeed, with `add_event` consuming ids honouring `generate_unique_id`'s
uniqueness contract. -/
inductive ReachableOk : Calendar → Prop where
  | init : ReachableOk Calendar.empty
  | step {c c' : Calendar} (op : COp) : ReachableOk c → opFresh c op →
      applyOp c op = (c', none) → ReachableOk c'

/-- A day's slot values contain `event_id` (Python
`event_id in day.slots.values()`). -/
def dayHas (day : Day) (event_id : EventId) : Bool :=
  day.slots.any fun p => p.2 = some event_id

/-- Every event id stored in any Day's slots is a key of the events registry. -/
def slotIdsRegistered (c : Calendar) : Prop :=
  ∀ dd ∈ c.days, ∀ p ∈ dd.2.slots, ∀ x, p.2 = some x →
    x ∈ c.events.map Prod.fst

/-- Executable check for `slotIdsRegistered`. -/
def checkSlotIdsRegistered (c : Calendar) : Bool :=
  c.days.all fun dd => dd.2.slots.all fun p =>
    match p.2 with
    | none => true
    | some x => c.events.any fun q => q.1 = x

/-- The per-slot assignment `Day.add_event` performs on a free in-range slot. -/
def assignSlot (event_id : EventId) (s e : Time) (p : Time × Option EventId) :
    Time × Option EventId :=
  if s ≤ p.1 ∧ p.1 < e then (p.1, some event_id) else p

/-- A slot list contains an occurrence of `x`. -/
def hasId (l : Slots) (x : EventId) : Prop :=
  ∃ p ∈ l, p.2 = some x

/-- The inductive invariant of success-only reachable Calendar states: the
dict key lists are duplicate-free (as in any Python dict), every id stored in
a slot is registered, and no id occupies two distinct Day entries. -/
def CalInv (c : Calendar) : Prop :=
  ((c.days.map Prod.fst).Nodup) ∧
  ((c.events.map Prod.fst).Nodup) ∧
  slotIdsRegistered c ∧
  (∀ (x : EventId) (dd1 dd2 : Date × Day), dd1 ∈ c.days → dd2 ∈ c.days →
    dayHas dd1.2 x = true → dayHas dd2.2 x = true → dd1 = dd2)

/-! ### Basic list lemmas -/

theorem eraseIdx_eq_take_append_drop {α : Type} :
    ∀ (l : List α) (n : Nat), l.eraseIdx n = l.take n ++ l.drop (n + 1) := by
  intro l
  induction l with
  | nil => intro n; cases n <;> rfl
  | cons a as ih =>
    intro n
    cases n with
    | zero => rfl
    | succ m => simp only [List.eraseIdx, List.take, List.drop, List.cons_append,
        List.cons.injEq, true_and]; exact ih m

theorem length_eraseIdx_succ {α : Type} :
    ∀ (l : List α) (n : Nat), n < l.length → (l.eraseIdx n).length + 1 = l.length := by
  intro l
  induction l with
  | nil => intro n h; simp at h
  | cons a as ih =>
    intro n h
    cases n with
    | zero => rfl
    | succ m =>
      simp only [List.eraseIdx, List.length_cons]
      have := ih m (by simpa using Nat.lt_of_succ_lt_succ h)
      omega

/-! ### C2: slot grid of a fresh Day -/

/-- C2: a freshly constructed `Day` has exactly 95 slots, keyed by the times
00:00, 00:15, ..., 23:30 in order (exactly the minute counts that are
multiples of 15 strictly below 23:45 = minute 1425), each initially free. -/
theorem initSlots_keys : initSlots.map Prod.fst = (List.range 95).map (fun k => k * 15) := by
  decide

theorem day_new_slot_grid (d : Date) :
    (Day.new d).slots.length = 95 ∧
    (Day.new d).slots.map Prod.fst = (List.range 95).map (fun k => k * 15) ∧
    (∀ p ∈ (Day.new d).slots, p.2 = none) ∧
    ∀ t : Nat, (t ∈ (Day.new d).slots.map Prod.fst ↔ (t % 15 = 0 ∧ t < 1425)) := by
  have h95 : initSlots.length = 95 := by decide
  have hfree : ∀ p ∈ initSlots, p.2 = none := by decide
  refine ⟨h95, initSlots_keys, hfree, fun t => ?_⟩
  show t ∈ initSlots.map Prod.fst ↔ (t % 15 = 0 ∧ t < 1425)
  rw [initSlots_keys]
  simp only [List.mem_map, List.mem_range]
  constructor
  · rintro ⟨k, hk2, hkt⟩
    omega
  · intro h
    exact ⟨t / 15, by omega, by omega⟩

/-- Witness for C2 at a concrete date and slot key. -/
theorem day_new_slot_grid_witness :
    (1410 : Time) ∈ (Day.new 0).slots.map Prod.fst :=
  ((day_new_slot_grid 0).2.2.2 1410).mpr ⟨by decide, by decide⟩

/-! ### C4: a range covering no slot books nothing -/

theorem addSlotsLoop_no_range (event_id : EventId) (s e : Time) :
    ∀ l : Slots, (∀ p ∈ l, ¬(s ≤ p.1 ∧ p.1 < e)) →
      addSlotsLoop event_id s e l = (l, none) := by
  intro l
  induction l with
  | nil => intro _; rfl
  | cons p rest ih =>
    intro h
    obtain ⟨t, v⟩ := p
    have hnr : ¬(s ≤ t ∧ t < e) := h (t, v) (List.mem_cons_self _ _)
    have ih' := ih fun q hq => h q (List.mem_cons_of_mem _ hq)
    simp only [addSlotsLoop, if_neg hnr, ih']

/-- C4: if `start..end` covers none of the Day's slot keys, `Day.add_event`
assigns no slot, raises no error, and leaves the Day unchanged. -/
theorem day_add_event_empty_range (d : Day) (event_id : EventId) (s e : Time)
    (h : ∀ p ∈ d.slots, ¬(s ≤ p.1 ∧ p.1 < e)) :
    d.add_event event_id s e = (d, none) := by
  show ({ d with slots := (addSlotsLoop event_id s e d.slots).1 },
        (addSlotsLoop event_id s e d.slots).2) = (d, none)
  rw [addSlotsLoop_no_range event_id s e d.slots h]

/-- Witness for C4: an inverted range on a fresh Day books nothing. -/
theorem day_add_event_empty_range_witness :
    (Day.new 0).add_event "a" 10 10 = (Day.new 0, none) :=
  day_add_event_empty_range (Day.new 0) "a" 10 10 (by decide)

/-! ### C7: past dates are rejected without touching the state -/

theorem add_event_past_shape (c : Calendar) (today : Date) (newId : EventId)
    (title description : String) (date_ : Date) (s e : Time)
    (h : date_ < today) :
    c.add_event today newId title description date_ s e
      = (c, some CalError.dateLowerThanToday, none) := by
  unfold Calendar.add_event
  rw [if_pos h]

/-- C7: `Calendar.add_event` with a date strictly earlier than the current
date fails with `DateLowerThanToday` and changes nothing, for any other
arguments. -/
theorem add_event_past_date (c : Calendar) (today : Date) (newId : EventId)
    (title description : String) (date_ : Date) (s e : Time)
    (h : date_ < today) :
    c.add_event today newId title description date_ s e
      = (c, some CalError.dateLowerThanToday, none) :=
  add_event_past_shape c today newId title description date_ s e h

/-- Witness for C7 at concrete arguments. -/
theorem add_event_past_date_witness :
    Calendar.empty.add_event 5 "a" "t" "d" 0 0 15
      = (Calendar.empty, some CalError.dateLowerThanToday, none) :=
  add_event_past_date Calendar.empty 5 "a" "t" "d" 0 0 15 (by decide)

/-! ### C8: positional reminder deletion -/

/-- C8: `Event.delete_reminder i` removes the element at position `i` when
`0 <= i < length` (ordinary sequence removal, length drops by one); any other
integer index fails with `ReminderNotFound` and leaves the list unchanged. -/
theorem event_delete_reminder_spec (ev : Event) (i : Int) :
    ((0 ≤ i ∧ i < (ev.reminders.length : Int)) →
      (ev.delete_reminder i).2 = none ∧
      (ev.delete_reminder i).1.reminders
        = ev.reminders.take i.toNat ++ ev.reminders.drop (i.toNat + 1) ∧
      (ev.delete_reminder i).1.reminders.length + 1 = ev.reminders.length) ∧
    (¬(0 ≤ i ∧ i < (ev.reminders.length : Int)) →
      ev.delete_reminder i = (ev, some CalError.reminderNotFound)) := by
  constructor
  · intro h
    unfold Event.delete_reminder
    rw [if_pos h]
    refine ⟨rfl, eraseIdx_eq_take_append_drop _ _, ?_⟩
    exact length_eraseIdx_succ _ _ (by omega)
  · intro h
    unfold Event.delete_reminder
    rw [if_neg h]

/-- Witness for C8: deleting index 0 of a two-reminder list. -/
theorem event_delete_reminder_spec_witness :
    (Event.delete_reminder ⟨"t", "d", 0, 0, 15, "a", [⟨1, "email"⟩, ⟨2, "system"⟩]⟩ 0).2
        = none ∧
    (Event.delete_reminder ⟨"t", "d", 0, 0, 15, "a", [⟨1, "email"⟩, ⟨2, "system"⟩]⟩ 0).1.reminders
        = [⟨1, "email"⟩, ⟨2, "system"⟩].take 0 ++ [⟨1, "email"⟩, ⟨2, "system"⟩].drop 1 ∧
    (Event.delete_reminder ⟨"t", "d", 0, 0, 15, "a", [⟨1, "email"⟩, ⟨2, "system"⟩]⟩ 0).1.reminders.length + 1
        = ([⟨1, "email"⟩, ⟨2, "system"⟩] : List Reminder).length :=
  (event_delete_reminder_spec ⟨"t", "d", 0, 0, 15, "a", [⟨1, "email"⟩, ⟨2, "system"⟩]⟩ 0).1
    (by decide)

/-! ### Characterisation of the booking loop of `Day.add_event` -/

theorem addSlotsLoop_success (event_id : EventId) (s e : Time) :
    ∀ l : Slots, (∀ p ∈ l, s ≤ p.1 → p.1 < e → p.2 = none) →
      addSlotsLoop event_id s e l = (l.map (assignSlot event_id s e), none) := by
  intro l
  induction l with
  | nil => intro _; rfl
  | cons p rest ih =>
    intro h
    obtain ⟨t, v⟩ := p
    have ih' := ih fun q hq => h q (List.mem_cons_of_mem _ hq)
    by_cases hr : s ≤ t ∧ t < e
    · have hv : v = none := h (t, v) (List.mem_cons_self _ _) hr.1 hr.2
      subst hv
      simp only [addSlotsLoop, if_pos hr, ih', List.map_cons]
      simp only [assignSlot, if_pos hr]
    · simp only [addSlotsLoop, if_neg hr, ih', List.map_cons]
      simp only [assignSlot, if_neg hr]

theorem addSlotsLoop_err_none_iff (event_id : EventId) (s e : Time) :
    ∀ l : Slots, ((addSlotsLoop event_id s e l).2 = none ↔
      ∀ p ∈ l, s ≤ p.1 → p.1 < e → p.2 = none) := by
  intro l
  induction l with
  | nil => simp [addSlotsLoop]
  | cons p rest ih =>
    obtain ⟨t, v⟩ := p
    by_cases hr : s ≤ t ∧ t < e
    · cases v with
      | some w =>
        simp only [addSlotsLoop, if_pos hr]
        constructor
        · intro h; exact absurd h (by simp)
        · intro h
          have := h (t, some w) (List.mem_cons_self _ _) hr.1 hr.2
          simp at this
      | none =>
        simp only [addSlotsLoop, if_pos hr]
        rw [ih]
        constructor
        · intro h q hq
          rcases List.mem_cons.mp hq with h1 | h2
          · subst h1; intro _ _; rfl
          · exact h q h2
        · intro h q hq; exact h q (List.mem_cons_of_mem _ hq)
    · simp only [addSlotsLoop, if_neg hr]
      rw [ih]
      constructor
      · intro h q hq
        rcases List.mem_cons.mp hq with h1 | h2
        · subst h1; intro ha hb; exact absurd ⟨ha, hb⟩ hr
        · exact h q h2
      · intro h q hq; exact h q (List.mem_cons_of_mem _ hq)

theorem addSlotsLoop_err_cases (event_id : EventId) (s e : Time) :
    ∀ l : Slots, (addSlotsLoop event_id s e l).2 = none ∨
      (addSlotsLoop event_id s e l).2 = some CalError.slotNotAvailable := by
  intro l
  induction l with
  | nil => left; rfl
  | cons p rest ih =>
    obtain ⟨t, v⟩ := p
    by_cases hr : s ≤ t ∧ t < e
    · cases v with
      | some w => right; simp [addSlotsLoop, if_pos hr]
      | none => simpa only [addSlotsLoop, if_pos hr] using ih
    · simpa only [addSlotsLoop, if_neg hr] using ih

theorem addSlotsLoop_conflict (event_id : EventId) (s e : Time) :
    ∀ (pre : Slots) (t0 : Time) (w : EventId) (post : Slots),
      (∀ p ∈ pre, s ≤ p.1 → p.1 < e → p.2 = none) → s ≤ t0 → t0 < e →
      addSlotsLoop event_id s e (pre ++ (t0, some w) :: post)
        = (pre.map (assignSlot event_id s e) ++ (t0, some w) :: post,
           some CalError.slotNotAvailable) := by
  intro pre
  induction pre with
  | nil =>
    intro t0 w post _ h1 h2
    simp only [List.nil_append, addSlotsLoop, List.map_nil]
    rw [if_pos (show s ≤ t0 ∧ t0 < e from ⟨h1, h2⟩)]
  | cons p rest ih =>
    intro t0 w post h h1 h2
    obtain ⟨t, v⟩ := p
    have ih' := ih t0 w post (fun q hq => h q (List.mem_cons_of_mem _ hq)) h1 h2
    by_cases hr : s ≤ t ∧ t < e
    · have hv : v = none := h (t, v) (List.mem_cons_self _ _) hr.1 hr.2
      subst hv
      simp only [List.cons_append, addSlotsLoop, if_pos hr, List.append_eq, ih',
        List.map_cons]
      simp only [assignSlot, if_pos hr]
    · simp only [List.cons_append, addSlotsLoop, if_neg hr, List.append_eq, ih',
        List.map_cons]
      simp only [assignSlot, if_neg hr]

/-- C3: `Day.add_event` processes the in-range slots in iteration order.  If
every in-range slot is free, all of them are assigned `event_id`.  If some
in-range slot is occupied, the first such slot aborts the call with
`SlotNotAvailable`, every in-range free slot before it having already been
overwritten with `event_id` and every slot from the conflict on being left
untouched (no rollback). -/
theorem day_add_event_iteration_order (d : Day) (event_id : EventId) (s e : Time) :
    ((∀ p ∈ d.slots, s ≤ p.1 → p.1 < e → p.2 = none) →
      d.add_event event_id s e
        = ({ d with slots := d.slots.map (assignSlot event_id s e) }, none)) ∧
    (∀ (pre : Slots) (t0 : Time) (w : EventId) (post : Slots),
      d.slots = pre ++ (t0, some w) :: post →
      (∀ p ∈ pre, s ≤ p.1 → p.1 < e → p.2 = none) → s ≤ t0 → t0 < e →
      d.add_event event_id s e
        = ({ d with slots := pre.map (assignSlot event_id s e) ++ (t0, some w) :: post },
           some CalError.slotNotAvailable)) := by
  constructor
  · intro h
    show ({ d with slots := (addSlotsLoop event_id s e d.slots).1 },
          (addSlotsLoop event_id s e d.slots).2)
        = ({ d with slots := d.slots.map (assignSlot event_id s e) }, none)
    rw [addSlotsLoop_success event_id s e d.slots h]
  · intro pre t0 w post hsplit hpre h1 h2
    show ({ d with slots := (addSlotsLoop event_id s e d.slots).1 },
          (addSlotsLoop event_id s e d.slots).2)
        = ({ d with slots := pre.map (assignSlot event_id s e) ++ (t0, some w) :: post },
           some CalError.slotNotAvailable)
    rw [hsplit, addSlotsLoop_conflict event_id s e pre t0 w post hpre h1 h2]

/-- Witness for C3: a conflict on the second in-range slot leaves the first
one already overwritten and the rest untouched. -/
theorem day_add_event_iteration_order_witness :
    Day.add_event ⟨0, [(0, none), (15, some "x"), (30, none)]⟩ "b" 0 45
      = (⟨0, [(0, some "b"), (15, some "x"), (30, none)]⟩,
         some CalError.slotNotAvailable) :=
  (day_add_event_iteration_order ⟨0, [(0, none), (15, some "x"), (30, none)]⟩ "b" 0 45).2
    [(0, none)] 15 "x" [(30, none)] rfl (by decide) (by decide) (by decide)

/-! ### Association-list dictionary lemmas -/

theorem dictGet_eq_none_iff {α β : Type} [DecidableEq α] (m : List (α × β)) (k : α) :
    dictGet m k = none ↔ ∀ p ∈ m, p.1 ≠ k := by
  induction m with
  | nil => simp [dictGet]
  | cons p rest ih =>
    by_cases hp : p.1 = k
    · simp [dictGet, hp]
    · simp only [dictGet, if_neg hp, ih, List.mem_cons]
      constructor
      · rintro h q (rfl | hq)
        · exact hp
        · exact h q hq
      · intro h q hq
        exact h q (Or.inr hq)

theorem dictGet_mem {α β : Type} [DecidableEq α] {m : List (α × β)} {k : α} {v : β}
    (h : dictGet m k = some v) : (k, v) ∈ m := by
  induction m with
  | nil => simp [dictGet] at h
  | cons p rest ih =>
    by_cases hp : p.1 = k
    · rw [dictGet, if_pos hp] at h
      obtain rfl : p.2 = v := by injection h
      subst hp
      exact List.mem_cons_self _ _
    · rw [dictGet, if_neg hp] at h
      exact List.mem_cons_of_mem _ (ih h)

theorem dictGet_isSome_iff {α β : Type} [DecidableEq α] (m : List (α × β)) (k : α) :
    (dictGet m k).isSome = true ↔ k ∈ m.map Prod.fst := by
  induction m with
  | nil => simp [dictGet]
  | cons p rest ih =>
    by_cases hp : p.1 = k
    · simp [dictGet, hp]
    · simp only [dictGet, if_neg hp, ih, List.map_cons, List.mem_cons]
      constructor
      · exact fun h => Or.inr h
      · rintro (h | h)
        · exact absurd h.symm hp
        · exact h

theorem dictGet_append_of_none {α β : Type} [DecidableEq α]
    (pre rest : List (α × β)) (k : α) (h : ∀ p ∈ pre, p.1 ≠ k) :
    dictGet (pre ++ rest) k = dictGet rest k := by
  induction pre with
  | nil => rfl
  | cons p pr ih =>
    have hp := h p (List.mem_cons_self _ _)
    rw [List.cons_append, dictGet, if_neg hp]
    exact ih fun q hq => h q (List.mem_cons_of_mem _ hq)

theorem dictGet_map_replace {α β : Type} [DecidableEq α]
    (m : List (α × β)) (k : α) (v : β) :
    (dictGet m k).isSome = true →
      dictGet (m.map fun p => if p.1 = k then (p.1, v) else p) k = some v := by
  induction m with
  | nil => simp [dictGet]
  | cons p rest ih =>
    intro h
    by_cases hp : p.1 = k
    · rw [List.map_cons, if_pos hp, dictGet, if_pos hp]
    · rw [List.map_cons, if_neg hp, dictGet, if_neg hp]
      rw [dictGet, if_neg hp] at h
      exact ih h

theorem dictGet_map_replace_ne {α β : Type} [DecidableEq α]
    (m : List (α × β)) (k : α) (v : β) (k' : α) (h : k' ≠ k) :
    dictGet (m.map fun p => if p.1 = k then (p.1, v) else p) k' = dictGet m k' := by
  induction m with
  | nil => rfl
  | cons p rest ih =>
    by_cases hp : p.1 = k
    · have hp' : ¬ p.1 = k' := fun hc => h (hc ▸ hp)
      rw [List.map_cons, if_pos hp, dictGet, if_neg hp', dictGet, if_neg hp']
      exact ih
    · by_cases hq : p.1 = k'
      · rw [List.map_cons, if_neg hp, dictGet, if_pos hq, dictGet, if_pos hq]
      · rw [List.map_cons, if_neg hp, dictGet, if_neg hq, dictGet, if_neg hq]
        exact ih

theorem dictGet_dictSet_self {α β : Type} [DecidableEq α]
    (m : List (α × β)) (k : α) (v : β) : dictGet (dictSet m k v) k = some v := by
  unfold dictSet
  by_cases h : (dictGet m k).isSome = true
  · rw [if_pos h]
    exact dictGet_map_replace m k v h
  · rw [if_neg h]
    have hnone : dictGet m k = none := by
      cases hd : dictGet m k
      · rfl
      · rw [hd] at h; simp at h
    rw [dictGet_append_of_none m [(k, v)] k ((dictGet_eq_none_iff m k).mp hnone)]
    simp [dictGet]

theorem dictGet_append_single_ne {α β : Type} [DecidableEq α]
    (m : List (α × β)) (k : α) (v : β) (k' : α) (h : k' ≠ k) :
    dictGet (m ++ [(k, v)]) k' = dictGet m k' := by
  induction m with
  | nil =>
    show (if k = k' then some v else dictGet [] k') = dictGet ([] : List (α × β)) k'
    rw [if_neg fun hc => h hc.symm]
  | cons p rest ih =>
    by_cases hq : p.1 = k'
    · rw [List.cons_append, dictGet, if_pos hq, dictGet, if_pos hq]
    · rw [List.cons_append, dictGet, if_neg hq, dictGet, if_neg hq]
      exact ih

theorem dictGet_dictSet_ne {α β : Type} [DecidableEq α]
    (m : List (α × β)) (k : α) (v : β) (k' : α) (h : k' ≠ k) :
    dictGet (dictSet m k v) k' = dictGet m k' := by
  unfold dictSet
  by_cases hs : (dictGet m k).isSome = true
  · rw [if_pos hs]
    exact dictGet_map_replace_ne m k v k' h
  · rw [if_neg hs]
    exact dictGet_append_single_ne m k v k' h

theorem mem_dictSet {α β : Type} [DecidableEq α]
    {m : List (α × β)} {k : α} {v : β} {dd : α × β} (h : dd ∈ dictSet m k v) :
    dd = (k, v) ∨ (dd ∈ m ∧ dd.1 ≠ k) := by
  unfold dictSet at h
  by_cases hs : (dictGet m k).isSome = true
  · rw [if_pos hs] at h
    obtain ⟨p, hp, hdd⟩ := List.mem_map.mp h
    by_cases hpk : p.1 = k
    · left
      rw [← hdd, if_pos hpk, hpk]
    · right
      rw [← hdd, if_neg hpk]
      exact ⟨hp, hpk⟩
  · rw [if_neg hs] at h
    rcases List.mem_append.mp h with hm | hone
    · right
      refine ⟨hm, ?_⟩
      have hnone : dictGet m k = none := by
        cases hd : dictGet m k
        · rfl
        · rw [hd] at hs; simp at hs
      exact (dictGet_eq_none_iff m k).mp hnone dd hm
    · left
      simpa using hone

theorem dictGet_dictRemove_self {α β : Type} [DecidableEq α]
    (m : List (α × β)) (k : α) : dictGet (dictRemove m k) k = none := by
  rw [dictGet_eq_none_iff]
  intro p hp
  have := List.of_mem_filter hp
  simpa using this

theorem dictGet_dictRemove_ne {α β : Type} [DecidableEq α]
    (m : List (α × β)) (k k' : α) (h : k' ≠ k) :
    dictGet (dictRemove m k) k' = dictGet m k' := by
  induction m with
  | nil => rfl
  | cons p rest ih =>
    by_cases hp : p.1 = k
    · have hp' : ¬ p.1 = k' := fun hc => h (hc ▸ hp)
      show dictGet (List.filter _ (p :: rest)) k' = _
      rw [List.filter_cons_of_neg (by simpa using hp), dictGet, if_neg hp']
      exact ih
    · show dictGet (List.filter _ (p :: rest)) k' = _
      rw [List.filter_cons_of_pos (by simpa using hp)]
      by_cases hq : p.1 = k'
      · rw [dictGet, if_pos hq, dictGet, if_pos hq]
      · rw [dictGet, if_neg hq, dictGet, if_neg hq]
        exact ih

theorem dayFor_eq {c : Calendar} {date_ : Date} {day : Day}
    (h : dictGet c.days date_ = some day) : c.dayFor date_ = day := by
  unfold Calendar.dayFor
  rw [h]

theorem dayFor_eq_new {c : Calendar} {date_ : Date}
    (h : dictGet c.days date_ = none) : c.dayFor date_ = Day.new date_ := by
  unfold Calendar.dayFor
  rw [h]

/-! ### Shape lemmas for `Calendar.add_event` -/

theorem add_event_shape_error (c : Calendar) (today : Date) (newId : EventId)
    (title description : String) (date_ : Date) (s e : Time) (er : CalError)
    (hpast : ¬ date_ < today)
    (herr : (addSlotsLoop newId s e (c.dayFor date_).slots).2 = some er) :
    c.add_event today newId title description date_ s e
      = ({ c with days := dictSet c.days date_ ({ c.dayFor date_ with slots := (addSlotsLoop newId s e (c.dayFor date_).slots).1 }) }, some er, none) := by
  simp only [Calendar.add_event, if_neg hpast, Day.add_event, herr]

theorem add_event_shape_ok (c : Calendar) (today : Date) (newId : EventId)
    (title description : String) (date_ : Date) (s e : Time)
    (hpast : ¬ date_ < today)
    (hok : (addSlotsLoop newId s e (c.dayFor date_).slots).2 = none) :
    c.add_event today newId title description date_ s e
      = (⟨dictSet c.days date_ ({ c.dayFor date_ with slots := (addSlotsLoop newId s e (c.dayFor date_).slots).1 }), dictSet c.events newId ⟨title, description, date_, s, e, newId, []⟩⟩, none, some newId) := by
  simp only [Calendar.add_event, if_neg hpast, Day.add_event, hok]

/-! ### C6: overlapping second booking fails, first booking intact -/

theorem addSlotsLoop_preserves_occupied (event_id : EventId) (s e : Time) :
    ∀ (l : Slots) (t : Time) (w : EventId),
      dictGet l t = some (some w) →
      dictGet (addSlotsLoop event_id s e l).1 t = some (some w) := by
  intro l
  induction l with
  | nil => intro t w h; exact h
  | cons p rest ih =>
    intro t w h
    obtain ⟨t0, v⟩ := p
    by_cases hr : s ≤ t0 ∧ t0 < e
    · cases v with
      | some w0 =>
        simpa only [addSlotsLoop, if_pos hr] using h
      | none =>
        by_cases ht : t0 = t
        · rw [dictGet, if_pos ht] at h
          simp at h
        · rw [dictGet, if_neg ht] at h
          simp only [addSlotsLoop, if_pos hr]
          rw [dictGet, if_neg ht]
          exact ih t w h
    · by_cases ht : t0 = t
      · rw [dictGet, if_pos ht] at h
        simp only [addSlotsLoop, if_neg hr]
        rw [dictGet, if_pos ht]
        exact h
      · rw [dictGet, if_neg ht] at h
        simp only [addSlotsLoop, if_neg hr]
        rw [dictGet, if_neg ht]
        exact ih t w h

/-- C6: after a successful booking of `id1`, a second `add_event` on the same
date whose range covers a slot occupied by `id1` fails with
`SlotNotAvailable` and returns no id, and every slot holding `id1` still
holds it afterwards. -/
theorem add_event_overlap_conflict (c : Calendar) (today : Date)
    (id1 id2 title1 desc1 title2 desc2 : String) (date_ : Date) (s1 e1 s2 e2 : Time)
    (h1 : (c.add_event today id1 title1 desc1 date_ s1 e1).2.1 = none)
    (hov : ∃ p ∈ (((c.add_event today id1 title1 desc1 date_ s1 e1).1).dayFor date_).slots,
        (s2 ≤ p.1 ∧ p.1 < e2) ∧ p.2 = some id1) :
    ((((c.add_event today id1 title1 desc1 date_ s1 e1).1).add_event
        today id2 title2 desc2 date_ s2 e2).2.1 = some CalError.slotNotAvailable) ∧
    ((((c.add_event today id1 title1 desc1 date_ s1 e1).1).add_event
        today id2 title2 desc2 date_ s2 e2).2.2 = none) ∧
    ∀ t : Time,
      dictGet (((c.add_event today id1 title1 desc1 date_ s1 e1).1).dayFor date_).slots t
          = some (some id1) →
      dictGet (((((c.add_event today id1 title1 desc1 date_ s1 e1).1).add_event
          today id2 title2 desc2 date_ s2 e2).1).dayFor date_).slots t
          = some (some id1) := by
  have hpast : ¬ date_ < today := by
    intro hlt
    rw [add_event_past_shape c today id1 title1 desc1 date_ s1 e1 hlt] at h1
    simp at h1
  set c1 := (c.add_event today id1 title1 desc1 date_ s1 e1).1 with hc1
  have herr : (addSlotsLoop id2 s2 e2 (c1.dayFor date_).slots).2
      = some CalError.slotNotAvailable := by
    rcases addSlotsLoop_err_cases id2 s2 e2 (c1.dayFor date_).slots with h | h
    · exfalso
      obtain ⟨p, hp, ⟨hs2, he2⟩, hid⟩ := hov
      have := (addSlotsLoop_err_none_iff id2 s2 e2 (c1.dayFor date_).slots).mp h p hp hs2 he2
      rw [hid] at this
      exact Option.noConfusion this
    · exact h
  have hshape := add_event_shape_error c1 today id2 title2 desc2 date_ s2 e2
    CalError.slotNotAvailable hpast herr
  refine ⟨by rw [hshape], by rw [hshape], ?_⟩
  intro t ht
  rw [hshape]
  have hday : dictGet (dictSet c1.days date_ ({ c1.dayFor date_ with slots := (addSlotsLoop id2 s2 e2 (c1.dayFor date_).slots).1 })) date_ = some ({ c1.dayFor date_ with slots := (addSlotsLoop id2 s2 e2 (c1.dayFor date_).slots).1 }) :=
    dictGet_dictSet_self _ _ _
  rw [dayFor_eq hday]
  exact addSlotsLoop_preserves_occupied id2 s2 e2 (c1.dayFor date_).slots t id1 ht

/-- Witness for C6: book 00:15-00:30, then try 00:00-00:30 on the same date. -/
theorem add_event_overlap_conflict_witness :
    dictGet ((((Calendar.empty.add_event 0 "a" "T1" "D1" 0 15 30).1).add_event
        0 "b" "T2" "D2" 0 0 30).1.dayFor 0).slots 15 = some (some "a") :=
  (add_event_overlap_conflict Calendar.empty 0 "a" "b" "T1" "D1" "T2" "D2" 0 15 30 0 30
    (by decide) (by decide)).2.2 15 (by decide)

/-! ### Decomposition lemmas for dictionaries and the delete loop -/

theorem map_id_of {α : Type} {f : α → α} :
    ∀ l : List α, (∀ p ∈ l, f p = p) → l.map f = l := by
  intro l
  induction l with
  | nil => intro _; rfl
  | cons p rest ih =>
    intro h
    rw [List.map_cons, h p (List.mem_cons_self _ _),
      ih fun q hq => h q (List.mem_cons_of_mem _ hq)]

theorem dictGet_decomp {α β : Type} [DecidableEq α] :
    ∀ {m : List (α × β)} {k : α} {v : β}, dictGet m k = some v →
      ∃ pre post, m = pre ++ (k, v) :: post ∧ ∀ p ∈ pre, p.1 ≠ k := by
  intro m
  induction m with
  | nil => intro k v h; simp [dictGet] at h
  | cons p rest ih =>
    intro k v h
    by_cases hp : p.1 = k
    · rw [dictGet, if_pos hp] at h
      obtain rfl : p.2 = v := by injection h
      refine ⟨[], rest, ?_, by simp⟩
      rw [List.nil_append, ← hp]
    · rw [dictGet, if_neg hp] at h
      obtain ⟨pre, post, heq, hpre⟩ := ih h
      refine ⟨p :: pre, post, by rw [heq, List.cons_append], ?_⟩
      intro q hq
      rcases List.mem_cons.mp hq with rfl | hq2
      · exact hp
      · exact hpre q hq2

theorem nodup_keys_post {α β : Type} (pre : List (α × β)) (k : α) (v : β)
    (post : List (α × β))
    (hnd : (((pre ++ (k, v) :: post)).map Prod.fst).Nodup) :
    ∀ p ∈ post, p.1 ≠ k := by
  intro p hp hc
  rw [List.map_append, List.map_cons] at hnd
  have h2 := hnd.of_append_right
  rw [List.nodup_cons] at h2
  have hmem : p.1 ∈ post.map Prod.fst := List.mem_map_of_mem Prod.fst hp
  rw [hc] at hmem
  exact h2.1 hmem

theorem dictSet_decomp {α β : Type} [DecidableEq α]
    (pre : List (α × β)) (k : α) (v v' : β) (post : List (α × β))
    (hpre : ∀ p ∈ pre, p.1 ≠ k) (hpost : ∀ p ∈ post, p.1 ≠ k) :
    dictSet (pre ++ (k, v) :: post) k v' = pre ++ (k, v') :: post := by
  have hget : dictGet (pre ++ (k, v) :: post) k = some v := by
    rw [dictGet_append_of_none pre _ k hpre, dictGet, if_pos rfl]
  unfold dictSet
  rw [if_pos (by rw [hget]; rfl)]
  rw [List.map_append, List.map_cons, if_pos rfl]
  rw [map_id_of pre fun p hp => by rw [if_neg (hpre p hp)],
    map_id_of post fun p hp => by rw [if_neg (hpost p hp)]]

theorem dictSet_absent {α β : Type} [DecidableEq α]
    (m : List (α × β)) (k : α) (v : β) (h : dictGet m k = none) :
    dictSet m k v = m ++ [(k, v)] := by
  unfold dictSet
  rw [if_neg (by rw [h]; simp)]

theorem dayHas_false_iff (day : Day) (event_id : EventId) :
    dayHas day event_id = false ↔ ∀ p ∈ day.slots, p.2 ≠ some event_id := by
  unfold dayHas
  constructor
  · intro h p hp hc
    have hany : day.slots.any (fun p => p.2 = some event_id) = true :=
      List.any_eq_true.mpr ⟨p, hp, by simp [hc]⟩
    rw [h] at hany
    exact Bool.noConfusion hany
  · intro h
    cases ha : day.slots.any (fun p => p.2 = some event_id)
    · rfl
    · exfalso
      obtain ⟨p, hp, hpe⟩ := List.any_eq_true.mp ha
      exact h p hp (by simpa using hpe)

theorem delete_event_shape (day : Day) (event_id : EventId) :
    day.delete_event event_id
      = ({ day with slots := day.slots.map fun p => if p.2 = some event_id then (p.1, none) else p },
         if day.slots.any (fun p => p.2 = some event_id) then none
         else some CalError.eventNotFound) := rfl

theorem delete_event_err_none (day : Day) (event_id : EventId)
    (h : dayHas day event_id = true) : (day.delete_event event_id).2 = none := by
  rw [delete_event_shape]
  exact if_pos h

theorem deleteDaysLoop_all_false (event_id : EventId) :
    ∀ l : List (Date × Day), (∀ dd ∈ l, dayHas dd.2 event_id = false) →
      deleteDaysLoop event_id l = (l, none) := by
  intro l
  induction l with
  | nil => intro _; rfl
  | cons dd rest ih =>
    intro h
    obtain ⟨dt, day⟩ := dd
    have hdd : dayHas day event_id = false := h (dt, day) (List.mem_cons_self _ _)
    have ih' := ih fun q hq => h q (List.mem_cons_of_mem _ hq)
    simp only [deleteDaysLoop, ih']
    rw [if_neg (by rw [show day.slots.any (fun p => p.2 = some event_id) = dayHas day event_id from rfl, hdd]; simp)]

theorem deleteDaysLoop_decomp (event_id : EventId)
    (pre : List (Date × Day)) (k : Date) (day : Day) (post : List (Date × Day))
    (hpre : ∀ dd ∈ pre, dayHas dd.2 event_id = false)
    (hday : dayHas day event_id = true) :
    deleteDaysLoop event_id (pre ++ (k, day) :: post)
      = (pre ++ (k, (day.delete_event event_id).1) :: post,
         (day.delete_event event_id).2) := by
  induction pre with
  | nil =>
    simp only [List.nil_append, deleteDaysLoop]
    rw [if_pos (by exact hday)]
  | cons dd rest ih =>
    obtain ⟨dt, d0⟩ := dd
    have hdd : dayHas d0 event_id = false := hpre (dt, d0) (List.mem_cons_self _ _)
    have ih' := ih fun q hq => hpre q (List.mem_cons_of_mem _ hq)
    simp only [List.cons_append, deleteDaysLoop, List.append_eq, ih']
    rw [if_neg (by rw [show d0.slots.any (fun p => p.2 = some event_id) = dayHas d0 event_id from rfl, hdd]; simp)]

theorem delete_event_calendar_shape (c : Calendar) (event_id : EventId)
    (h : ¬ (dictGet c.events event_id).isNone = true) :
    c.delete_event event_id
      = (⟨(deleteDaysLoop event_id c.days).1, dictRemove c.events event_id⟩,
         (deleteDaysLoop event_id c.days).2) := by
  simp only [Calendar.delete_event, if_neg h]

/-! ### Clearing an event undoes a fresh successful booking -/

theorem initSlots_free : ∀ p ∈ initSlots, p.2 = none := by decide

theorem clear_after_assign (l : Slots) (event_id : EventId) (s e : Time)
    (hfree : ∀ p ∈ l, p.2 ≠ some event_id)
    (hok : (addSlotsLoop event_id s e l).2 = none) :
    (addSlotsLoop event_id s e l).1.map
      (fun p => if p.2 = some event_id then (p.1, none) else p) = l := by
  have hall := (addSlotsLoop_err_none_iff event_id s e l).mp hok
  rw [addSlotsLoop_success event_id s e l hall, List.map_map]
  apply map_id_of
  intro p hp
  show (fun q => if q.2 = some event_id then (q.1, none) else q) (assignSlot event_id s e p) = p
  unfold assignSlot
  by_cases hr : s ≤ p.1 ∧ p.1 < e
  · rw [if_pos hr]
    show (if (some event_id : Option EventId) = some event_id then (p.1, none) else (p.1, some event_id)) = p
    rw [if_pos rfl]
    have hp2 : p.2 = none := hall p hp hr.1 hr.2
    calc (p.1, (none : Option EventId)) = (p.1, p.2) := by rw [hp2]
    _ = p := rfl
  · rw [if_neg hr]
    show (if p.2 = some event_id then (p.1, none) else p) = p
    rw [if_neg (hfree p hp)]

theorem addSlotsLoop_no_assign (l : Slots) (event_id : EventId) (s e : Time)
    (hok : (addSlotsLoop event_id s e l).2 = none)
    (hnone : ∀ p ∈ (addSlotsLoop event_id s e l).1, p.2 ≠ some event_id) :
    (addSlotsLoop event_id s e l).1 = l := by
  have hall := (addSlotsLoop_err_none_iff event_id s e l).mp hok
  rw [addSlotsLoop_success event_id s e l hall] at hnone ⊢
  apply map_id_of
  intro p hp
  unfold assignSlot
  by_cases hr : s ≤ p.1 ∧ p.1 < e
  · exfalso
    have hmem : assignSlot event_id s e p ∈ l.map (assignSlot event_id s e) :=
      List.mem_map_of_mem _ hp
    have := hnone _ hmem
    unfold assignSlot at this
    rw [if_pos hr] at this
    exact this rfl
  · rw [if_neg hr]

/-! ### C5: booking then deleting restores the Day and the registry -/

/-- C5: if `Calendar.add_event` succeeds with a fresh id, an immediate
`Calendar.delete_event` of that id raises nothing, removes the id from the
events registry, and restores the date's Day exactly to its pre-add state
(in particular, every slot the add occupied is free again). -/
theorem add_then_delete_roundtrip (c : Calendar) (today : Date) (newId : EventId)
    (title description : String) (date_ : Date) (s e : Time)
    (hnd : (c.days.map Prod.fst).Nodup)
    (hfresh : ∀ dd ∈ c.days, dayHas dd.2 newId = false)
    (hok : (c.add_event today newId title description date_ s e).2.1 = none) :
    (((c.add_event today newId title description date_ s e).1).delete_event newId).2 = none ∧
    dictGet ((((c.add_event today newId title description date_ s e).1).delete_event newId).1).events newId = none ∧
    dictGet ((((c.add_event today newId title description date_ s e).1).delete_event newId).1).days date_ = some (c.dayFor date_) := by
  have hpast : ¬ date_ < today := by
    intro hlt
    rw [add_event_past_shape c today newId title description date_ s e hlt] at hok
    simp at hok
  have hir : (addSlotsLoop newId s e (c.dayFor date_).slots).2 = none := by
    rcases addSlotsLoop_err_cases newId s e (c.dayFor date_).slots with h | h
    · exact h
    · exfalso
      rw [add_event_shape_error c today newId title description date_ s e
        CalError.slotNotAvailable hpast h] at hok
      simp at hok
  have hshape := add_event_shape_ok c today newId title description date_ s e hpast hir
  rw [hshape]
  set day0 := c.dayFor date_ with hday0
  set day1 : Day := { day0 with slots := (addSlotsLoop newId s e day0.slots).1 } with hday1
  have hfree0 : ∀ p ∈ day0.slots, p.2 ≠ some newId := by
    cases hpres : dictGet c.days date_ with
    | some d =>
      have : day0 = d := hday0 ▸ dayFor_eq hpres
      rw [this]
      exact (dayHas_false_iff d newId).mp (hfresh (date_, d) (dictGet_mem hpres))
    | none =>
      have : day0 = Day.new date_ := hday0 ▸ dayFor_eq_new hpres
      rw [this]
      intro p hp
      rw [initSlots_free p hp]
      exact fun hc => Option.noConfusion hc
  -- the freshly booked day cleared of `newId` is exactly `day0`
  have hclear : (day1.delete_event newId).1 = day0 := by
    rw [delete_event_shape]
    show ({ day1 with slots := day1.slots.map fun p => if p.2 = some newId then (p.1, none) else p }) = day0
    have : day1.slots.map (fun p => if p.2 = some newId then (p.1, none) else p) = day0.slots := by
      show (addSlotsLoop newId s e day0.slots).1.map _ = day0.slots
      exact clear_after_assign day0.slots newId s e hfree0 hir
    rw [this]
  -- registry part
  have hev : dictGet (dictSet c.events newId
      (⟨title, description, date_, s, e, newId, []⟩ : Event)) newId
      = some ⟨title, description, date_, s, e, newId, []⟩ := dictGet_dictSet_self _ _ _
  have hnotNone : ¬ (dictGet (dictSet c.events newId
      (⟨title, description, date_, s, e, newId, []⟩ : Event)) newId).isNone = true := by
    rw [hev]
    simp
  set c1 : Calendar := ⟨dictSet c.days date_ day1,
    dictSet c.events newId ⟨title, description, date_, s, e, newId, []⟩⟩ with hc1
  have hdel := delete_event_calendar_shape c1 newId hnotNone
  rw [hdel]
  -- analyse the days walk
  have hdays : (deleteDaysLoop newId (dictSet c.days date_ day1)).1.take 0 = [] := rfl
  clear hdays
  have hmain : (deleteDaysLoop newId (dictSet c.days date_ day1)).2 = none ∧
      dictGet (deleteDaysLoop newId (dictSet c.days date_ day1)).1 date_ = some day0 := by
    cases hpres : dictGet c.days date_ with
    | some d =>
      have hd0 : day0 = d := hday0 ▸ dayFor_eq hpres
      obtain ⟨pre, post, heq, hpre⟩ := dictGet_decomp hpres
      have hpost : ∀ p ∈ post, p.1 ≠ date_ := nodup_keys_post pre date_ d post (heq ▸ hnd)
      have hset : dictSet c.days date_ day1 = pre ++ (date_, day1) :: post := by
        rw [heq]
        exact dictSet_decomp pre date_ d day1 post hpre hpost
      have hprefresh : ∀ dd ∈ pre, dayHas dd.2 newId = false := fun dd hdd =>
        hfresh dd (heq ▸ List.mem_append_left _ hdd)
      have hpostfresh : ∀ dd ∈ post, dayHas dd.2 newId = false := fun dd hdd =>
        hfresh dd (heq ▸ List.mem_append_right _ (List.mem_cons_of_mem _ hdd))
      by_cases hhas : dayHas day1 newId = true
      · rw [hset, deleteDaysLoop_decomp newId pre date_ day1 post hprefresh hhas]
        refine ⟨delete_event_err_none day1 newId hhas, ?_⟩
        rw [hclear, dictGet_append_of_none pre _ date_ hpre, dictGet, if_pos rfl]
      · have hhas' : dayHas day1 newId = false := by
          cases h : dayHas day1 newId
          · rfl
          · exact absurd h hhas
        have hall : ∀ dd ∈ pre ++ (date_, day1) :: post, dayHas dd.2 newId = false := by
          intro dd hdd
          rcases List.mem_append.mp hdd with h1 | h2
          · exact hprefresh dd h1
          · rcases List.mem_cons.mp h2 with rfl | h3
            · exact hhas'
            · exact hpostfresh dd h3
        rw [hset, deleteDaysLoop_all_false newId _ hall]
        refine ⟨rfl, ?_⟩
        have hsame : day1 = day0 := by
          have hnone : ∀ p ∈ (addSlotsLoop newId s e day0.slots).1, p.2 ≠ some newId :=
            (dayHas_false_iff day1 newId).mp hhas'
          have := addSlotsLoop_no_assign day0.slots newId s e hir hnone
          rw [hday1, this]
        rw [← hsame, dictGet_append_of_none pre _ date_ hpre, dictGet, if_pos rfl]
    | none =>
      have hd0 : day0 = Day.new date_ := hday0 ▸ dayFor_eq_new hpres
      have hpre : ∀ p ∈ c.days, p.1 ≠ date_ := (dictGet_eq_none_iff c.days date_).mp hpres
      have hset : dictSet c.days date_ day1 = c.days ++ (date_, day1) :: [] :=
        dictSet_absent c.days date_ day1 hpres
      by_cases hhas : dayHas day1 newId = true
      · rw [hset, deleteDaysLoop_decomp newId c.days date_ day1 [] hfresh hhas]
        refine ⟨delete_event_err_none day1 newId hhas, ?_⟩
        rw [hclear, dictGet_append_of_none c.days _ date_ hpre, dictGet, if_pos rfl]
      · have hhas' : dayHas day1 newId = false := by
          cases h : dayHas day1 newId
          · rfl
          · exact absurd h hhas
        have hall : ∀ dd ∈ c.days ++ (date_, day1) :: [], dayHas dd.2 newId = false := by
          intro dd hdd
          rcases List.mem_append.mp hdd with h1 | h2
          · exact hfresh dd h1
          · rcases List.mem_cons.mp h2 with rfl | h3
            · exact hhas'
            · simp at h3
        rw [hset, deleteDaysLoop_all_false newId _ hall]
        refine ⟨rfl, ?_⟩
        have hsame : day1 = day0 := by
          have hnone : ∀ p ∈ (addSlotsLoop newId s e day0.slots).1, p.2 ≠ some newId :=
            (dayHas_false_iff day1 newId).mp hhas'
          have := addSlotsLoop_no_assign day0.slots newId s e hir hnone
          rw [hday1, this]
        rw [← hsame, dictGet_append_of_none c.days _ date_ hpre, dictGet, if_pos rfl]
  exact ⟨hmain.1, dictGet_dictRemove_self _ _, hmain.2⟩

/-- Witness for C5 at concrete arguments. -/
theorem add_then_delete_roundtrip_witness :
    (((Calendar.empty.add_event 0 "a" "T" "D" 0 15 30).1).delete_event "a").2 = none ∧
    dictGet ((((Calendar.empty.add_event 0 "a" "T" "D" 0 15 30).1).delete_event "a").1).events "a" = none ∧
    dictGet ((((Calendar.empty.add_event 0 "a" "T" "D" 0 15 30).1).delete_event "a").1).days 0 = some (Calendar.empty.dayFor 0) :=
  add_then_delete_roundtrip Calendar.empty 0 "a" "T" "D" 0 15 30
    (by decide) (by decide) (by decide)

/-! ### Shape lemmas for `Calendar.update_event` -/

theorem deleteDaysLoop_err_none (event_id : EventId) :
    ∀ l : List (Date × Day), (deleteDaysLoop event_id l).2 = none := by
  intro l
  induction l with
  | nil => rfl
  | cons dd rest ih =>
    obtain ⟨dt, day⟩ := dd
    by_cases hh : day.slots.any (fun p => p.2 = some event_id) = true
    · simp only [deleteDaysLoop, if_pos hh]
      exact delete_event_err_none day event_id hh
    · simp only [deleteDaysLoop, if_neg hh]
      exact ih

theorem delete_event_pair (c : Calendar) (event_id : EventId)
    (h : ¬ (dictGet c.events event_id).isNone = true) :
    c.delete_event event_id
      = (⟨(deleteDaysLoop event_id c.days).1, dictRemove c.events event_id⟩, none) := by
  rw [delete_event_calendar_shape c event_id h, deleteDaysLoop_err_none]

theorem update_event_shape_newdate (c : Calendar) (event_id : EventId)
    (title description : String) (date_ : Date) (s e : Time) (ev : Event)
    (hev : dictGet c.events event_id = some ev) (hne : ev.date_ ≠ date_) :
    c.update_event event_id title description date_ s e
      = (⟨dictSet (deleteDaysLoop event_id c.days).1 date_ ({ Calendar.dayFor ⟨(deleteDaysLoop event_id c.days).1, dictRemove c.events event_id⟩ date_ with slots := (addSlotsLoop event_id s e (Calendar.dayFor ⟨(deleteDaysLoop event_id c.days).1, dictRemove c.events event_id⟩ date_).slots).1 }), dictSet (dictRemove c.events event_id) event_id ⟨title, description, date_, s, e, event_id, []⟩⟩, (addSlotsLoop event_id s e (Calendar.dayFor ⟨(deleteDaysLoop event_id c.days).1, dictRemove c.events event_id⟩ date_).slots).2) := by
  have hnn : ¬ (dictGet c.events event_id).isNone = true := by
    rw [hev]; simp
  simp only [Calendar.update_event, hev, if_pos hne, delete_event_pair c event_id hnn,
    Day.add_event]

theorem update_event_shape_samedate (c : Calendar) (event_id : EventId)
    (title description : String) (date_ : Date) (s e : Time) (ev : Event)
    (hev : dictGet c.events event_id = some ev) (heq : ¬ ev.date_ ≠ date_) :
    c.update_event event_id title description date_ s e
      = (⟨(updateDaysLoop event_id s e c.days).1, dictSet c.events event_id ({ ev with title := title, description := description, date_ := date_, start_at := s, end_at := e })⟩, (updateDaysLoop event_id s e c.days).2) := by
  simp only [Calendar.update_event, hev, if_neg heq]

/-! ### C10: a date change discards reminders, a same-date update keeps them -/

/-- C10: a successful `update_event` that changes the event's date registers a
fresh `Event` under the same id whose reminders list is empty, while a
successful same-date update keeps the reminders (and the id) unchanged,
updating only the scalar fields. -/
theorem update_event_reminders (c : Calendar) (event_id : EventId)
    (title description : String) (date_ : Date) (s e : Time) (ev : Event)
    (hev : dictGet c.events event_id = some ev) :
    ((ev.date_ ≠ date_) →
      (c.update_event event_id title description date_ s e).2 = none →
      dictGet ((c.update_event event_id title description date_ s e).1).events event_id
        = some ⟨title, description, date_, s, e, event_id, []⟩) ∧
    ((ev.date_ = date_) →
      (c.update_event event_id title description date_ s e).2 = none →
      dictGet ((c.update_event event_id title description date_ s e).1).events event_id
        = some ⟨title, description, date_, s, e, ev.id, ev.reminders⟩) := by
  constructor
  · intro hne _
    rw [update_event_shape_newdate c event_id title description date_ s e ev hev hne]
    exact dictGet_dictSet_self _ _ _
  · intro heq _
    rw [update_event_shape_samedate c event_id title description date_ s e ev hev
      (by rw [heq]; exact fun hc => hc rfl)]
    exact dictGet_dictSet_self _ _ _

/-- Witness for C10: an event with one reminder moved to a new date loses it;
the same update on the same date keeps it. -/
theorem update_event_reminders_witness :
    dictGet ((((((Calendar.empty.add_event 0 "a" "T" "D" 0 15 30).1).add_reminder "a" 5 "email").1).update_event "a" "T2" "D2" 1 15 30).1).events "a"
      = some ⟨"T2", "D2", 1, 15, 30, "a", []⟩ :=
  (update_event_reminders (((Calendar.empty.add_event 0 "a" "T" "D" 0 15 30).1).add_reminder "a" 5 "email").1
    "a" "T2" "D2" 1 15 30 ⟨"T", "D", 0, 15, 30, "a", [⟨5, "email"⟩]⟩
    (by decide)).1 (by decide) (by decide)

/-! ### C9: moving an event to a new date -/

theorem nodup_keys_pre {α β : Type} (pre : List (α × β)) (k : α) (v : β)
    (post : List (α × β))
    (hnd : (((pre ++ (k, v) :: post)).map Prod.fst).Nodup) :
    ∀ p ∈ pre, p.1 ≠ k := by
  intro p hp hc
  rw [List.map_append] at hnd
  have hdisj := List.disjoint_of_nodup_append hnd
  have h1 : p.1 ∈ pre.map Prod.fst := List.mem_map_of_mem Prod.fst hp
  have h2 : k ∈ ((k, v) :: post).map Prod.fst := by
    rw [List.map_cons]
    exact List.mem_cons_self _ _
  exact hdisj h1 (hc ▸ h2)

theorem exists_first_has (event_id : EventId) :
    ∀ l : List (Date × Day), (¬ ∀ dd ∈ l, dayHas dd.2 event_id = false) →
      ∃ pre k day post, l = pre ++ (k, day) :: post ∧
        (∀ dd ∈ pre, dayHas dd.2 event_id = false) ∧ dayHas day event_id = true := by
  intro l
  induction l with
  | nil => intro h; exact absurd (by intro dd hdd; simp at hdd) h
  | cons dd rest ih =>
    intro h
    obtain ⟨dt, day⟩ := dd
    by_cases hh : dayHas day event_id = true
    · exact ⟨[], dt, day, rest, by rw [List.nil_append], by simp, hh⟩
    · have hh' : dayHas day event_id = false := by
        cases hx : dayHas day event_id
        · rfl
        · exact absurd hx hh
      have hrest : ¬ ∀ dd ∈ rest, dayHas dd.2 event_id = false := by
        intro hall
        apply h
        intro q hq
        rcases List.mem_cons.mp hq with rfl | hq2
        · exact hh'
        · exact hall q hq2
      obtain ⟨pre, k, d0, post, heq, hpre, hd0⟩ := ih hrest
      refine ⟨(dt, day) :: pre, k, d0, post, by rw [heq, List.cons_append], ?_, hd0⟩
      intro q hq
      rcases List.mem_cons.mp hq with rfl | hq2
      · exact hh'
      · exact hpre q hq2

theorem delete_event_clears (day : Day) (event_id : EventId) :
    ∀ p ∈ (day.delete_event event_id).1.slots, p.2 ≠ some event_id := by
  intro p hp
  rw [delete_event_shape] at hp
  obtain ⟨q, hq, hpq⟩ := List.mem_map.mp hp
  by_cases hq2 : q.2 = some event_id
  · rw [if_pos hq2] at hpq
    rw [← hpq]
    exact fun hc => Option.noConfusion hc
  · rw [if_neg hq2] at hpq
    rw [← hpq]
    exact hq2

theorem assigned_in_range (l : Slots) (event_id : EventId) (s e : Time)
    (hok : (addSlotsLoop event_id s e l).2 = none) :
    ∀ p ∈ (addSlotsLoop event_id s e l).1, s ≤ p.1 → p.1 < e → p.2 = some event_id := by
  have hall := (addSlotsLoop_err_none_iff event_id s e l).mp hok
  rw [addSlotsLoop_success event_id s e l hall]
  intro p hp hs he
  obtain ⟨q, hq, hpq⟩ := List.mem_map.mp hp
  have hkey : p.1 = q.1 := by
    rw [← hpq]
    unfold assignSlot
    by_cases hr : s ≤ q.1 ∧ q.1 < e
    · rw [if_pos hr]
    · rw [if_neg hr]
  have hr : s ≤ q.1 ∧ q.1 < e := ⟨hkey ▸ hs, hkey ▸ he⟩
  rw [← hpq]
  unfold assignSlot
  rw [if_pos hr]

/-- C9: moving a registered event (occupying days only under its own date
`d1`) to a different date `d2` by a successful `update_event` clears every
`d1` slot holding the id, re-registers the same id with date `d2`, and books
the id into the (possibly freshly created) Day of `d2`. -/
theorem update_event_move_date (c : Calendar) (event_id : EventId)
    (title description : String) (d1 d2 : Date) (s e : Time) (ev : Event)
    (hnd : (c.days.map Prod.fst).Nodup)
    (hev : dictGet c.events event_id = some ev)
    (hdate : ev.date_ = d1)
    (hne : d2 ≠ d1)
    (honly : ∀ dd ∈ c.days, dd.1 ≠ d1 → dayHas dd.2 event_id = false)
    (hok : (c.update_event event_id title description d2 s e).2 = none) :
    (∀ day1, dictGet ((c.update_event event_id title description d2 s e).1).days d1 = some day1 →
      ∀ p ∈ day1.slots, p.2 ≠ some event_id) ∧
    (dictGet ((c.update_event event_id title description d2 s e).1).events event_id
      = some ⟨title, description, d2, s, e, event_id, []⟩) ∧
    (∃ day2, dictGet ((c.update_event event_id title description d2 s e).1).days d2 = some day2 ∧
      ∀ p ∈ day2.slots, s ≤ p.1 → p.1 < e → p.2 = some event_id) := by
  have hne2 : ev.date_ ≠ d2 := by
    rw [hdate]
    exact fun hc => hne hc.symm
  have hshape := update_event_shape_newdate c event_id title description d2 s e ev hev hne2
  rw [hshape] at hok ⊢
  refine ⟨?_, dictGet_dictSet_self _ _ _, ?_⟩
  · -- the old date's Day no longer holds the id
    intro day1 hday1 p hp
    rw [dictGet_dictSet_ne _ _ _ _ (fun hc => hne hc.symm)] at hday1
    by_cases hall : ∀ dd ∈ c.days, dayHas dd.2 event_id = false
    · rw [deleteDaysLoop_all_false event_id c.days hall] at hday1
      exact (dayHas_false_iff day1 event_id).mp (hall (d1, day1) (dictGet_mem hday1)) p hp
    · obtain ⟨pre, k, day, post, heq, hpre, hday⟩ := exists_first_has event_id c.days hall
      have hk : k = d1 := by
        by_contra hk
        have := honly (k, day) (heq ▸ List.mem_append_right _ (List.mem_cons_self _ _)) hk
        rw [hday] at this
        exact Bool.noConfusion this
      subst hk
      have hprek : ∀ q ∈ pre, q.1 ≠ k := nodup_keys_pre pre k day post (heq ▸ hnd)
      rw [heq, deleteDaysLoop_decomp event_id pre k day post hpre hday,
        dictGet_append_of_none pre _ k hprek, dictGet, if_pos rfl] at hday1
      obtain rfl : (day.delete_event event_id).1 = day1 := by injection hday1
      exact delete_event_clears day event_id p hp
  · -- the new date's Day holds the id on the whole range
    refine ⟨_, dictGet_dictSet_self _ _ _, ?_⟩
    exact assigned_in_range _ event_id s e hok

/-- Witness for C9: move an event from date 0 to date 1 and observe the new
registry entry through the theorem. -/
theorem update_event_move_date_witness :
    dictGet ((((Calendar.empty.add_event 0 "a" "T" "D" 0 15 30).1).update_event "a" "T2" "D2" 1 15 30).1).events "a"
      = some ⟨"T2", "D2", 1, 15, 30, "a", []⟩ :=
  (update_event_move_date (Calendar.empty.add_event 0 "a" "T" "D" 0 15 30).1 "a"
    "T2" "D2" 0 1 15 30 ⟨"T", "D", 0, 15, 30, "a", []⟩
    (by decide) (by decide) (by decide) (by decide) (by decide) (by decide)).2.1

/-! ### Bridging the executable invariant check and the invariant -/

theorem dayHas_true_iff (day : Day) (x : EventId) :
    dayHas day x = true ↔ hasId day.slots x := by
  unfold dayHas hasId
  rw [List.any_eq_true]
  constructor
  · rintro ⟨p, hp, hpe⟩
    exact ⟨p, hp, by simpa using hpe⟩
  · rintro ⟨p, hp, hpe⟩
    exact ⟨p, hp, by simp [hpe]⟩

theorem checkSlotIdsRegistered_iff (c : Calendar) :
    checkSlotIdsRegistered c = true ↔ slotIdsRegistered c := by
  unfold checkSlotIdsRegistered slotIdsRegistered
  rw [List.all_eq_true]
  constructor
  · intro h dd hdd p hp x hx
    have h2 := List.all_eq_true.mp (h dd hdd) p hp
    rw [hx] at h2
    obtain ⟨q, hq, hqx⟩ := List.any_eq_true.mp h2
    have hq1 : q.1 = x := by simpa using hqx
    exact hq1 ▸ List.mem_map_of_mem Prod.fst hq
  · intro h dd hdd
    rw [List.all_eq_true]
    intro p hp
    cases hx : p.2 with
    | none => rfl
    | some x =>
      show (c.events.any fun q => q.1 = x) = true
      obtain ⟨q, hq, hq1⟩ := List.mem_map.mp (h dd hdd p hp x hx)
      exact List.any_eq_true.mpr ⟨q, hq, by simp [hq1]⟩

/-- Counterexample to C1 as stated: a failed `add_event` (conflict on the
second slot of its range) leaves the first slot holding an id that was never
registered, and the Calendar object survives the raise. -/
theorem slot_ids_registered_counterexample :
    ¬ slotIdsRegistered (runOps Calendar.empty
      [COp.addEvent 0 "a" "T" "D" 0 15 30, COp.addEvent 0 "b" "T" "D" 0 0 30]) := by
  intro h
  have hc := (checkSlotIdsRegistered_iff _).mpr h
  have hfalse : checkSlotIdsRegistered (runOps Calendar.empty
      [COp.addEvent 0 "a" "T" "D" 0 15 30, COp.addEvent 0 "b" "T" "D" 0 0 30]) = false := by
    decide
  rw [hfalse] at hc
  exact Bool.noConfusion hc

/-! ### Key-set lemmas -/

theorem map_fst_replace {α β : Type} [DecidableEq α] (m : List (α × β)) (k : α) (v : β) :
    (m.map fun p => if p.1 = k then (p.1, v) else p).map Prod.fst = m.map Prod.fst := by
  induction m with
  | nil => rfl
  | cons p rest ih =>
    by_cases hp : p.1 = k
    · simp only [List.map_cons, if_pos hp, ih]
    · simp only [List.map_cons, if_neg hp, ih]

theorem dictSet_keys_present {α β : Type} [DecidableEq α] (m : List (α × β)) (k : α)
    (v : β) (h : (dictGet m k).isSome = true) :
    (dictSet m k v).map Prod.fst = m.map Prod.fst := by
  unfold dictSet
  rw [if_pos h]
  exact map_fst_replace m k v

theorem dictSet_keys_absent {α β : Type} [DecidableEq α] (m : List (α × β)) (k : α)
    (v : β) (h : dictGet m k = none) :
    (dictSet m k v).map Prod.fst = m.map Prod.fst ++ [k] := by
  rw [dictSet_absent m k v h, List.map_append]
  rfl

theorem nodup_keys_dictSet {α β : Type} [DecidableEq α] (m : List (α × β)) (k : α)
    (v : β) (h : (m.map Prod.fst).Nodup) : ((dictSet m k v).map Prod.fst).Nodup := by
  cases hk : dictGet m k with
  | some w =>
    rw [dictSet_keys_present m k v (by rw [hk]; rfl)]
    exact h
  | none =>
    rw [dictSet_keys_absent m k v hk, List.nodup_append]
    refine ⟨h, List.nodup_singleton k, ?_⟩
    intro a ha hb
    have hak : a = k := by simpa using hb
    subst hak
    have : (dictGet m a).isSome = true := (dictGet_isSome_iff m a).mpr ha
    rw [hk] at this
    simp at this

theorem nodup_keys_dictRemove {α β : Type} [DecidableEq α] (m : List (α × β)) (k : α)
    (h : (m.map Prod.fst).Nodup) : ((dictRemove m k).map Prod.fst).Nodup :=
  List.Nodup.sublist (List.Sublist.map Prod.fst (List.filter_sublist m)) h

theorem mem_keys_dictSet_of {α β : Type} [DecidableEq α] {m : List (α × β)} {k : α}
    {v : β} {x : α} (h : x ∈ m.map Prod.fst) : x ∈ (dictSet m k v).map Prod.fst := by
  cases hk : dictGet m k with
  | none =>
    rw [dictSet_keys_absent m k v hk]
    exact List.mem_append_left _ h
  | some w =>
    rw [dictSet_keys_present m k v (by rw [hk]; rfl)]
    exact h

theorem mem_keys_dictSet_self {α β : Type} [DecidableEq α] (m : List (α × β)) (k : α)
    (v : β) : k ∈ (dictSet m k v).map Prod.fst :=
  (dictGet_isSome_iff _ _).mp (by rw [dictGet_dictSet_self]; rfl)

theorem mem_keys_dictRemove {α β : Type} [DecidableEq α] {m : List (α × β)} {k : α}
    {x : α} (h1 : x ∈ m.map Prod.fst) (h2 : x ≠ k) :
    x ∈ (dictRemove m k).map Prod.fst := by
  obtain ⟨q, hq, rfl⟩ := List.mem_map.mp h1
  exact List.mem_map_of_mem Prod.fst (List.mem_filter.mpr ⟨hq, by simpa using h2⟩)

/-! ### Occurrence-transfer lemmas for the slot loops -/

theorem hasId_clear {l : Slots} {event_id x : EventId}
    (h : hasId (l.map fun p => if p.2 = some event_id then (p.1, none) else p) x) :
    hasId l x ∧ x ≠ event_id := by
  obtain ⟨p, hp, hpe⟩ := h
  obtain ⟨q, hq, hpq⟩ := List.mem_map.mp hp
  by_cases hq2 : q.2 = some event_id
  · rw [if_pos hq2] at hpq
    rw [← hpq] at hpe
    simp at hpe
  · rw [if_neg hq2] at hpq
    subst hpq
    refine ⟨⟨q, hq, hpe⟩, fun hc => hq2 ?_⟩
    rw [hpe, hc]

theorem hasId_clear_of {l : Slots} {event_id x : EventId}
    (h : hasId l x) (hne : x ≠ event_id) :
    hasId (l.map fun p => if p.2 = some event_id then (p.1, none) else p) x := by
  obtain ⟨p, hp, hpe⟩ := h
  have hfix : (if p.2 = some event_id then (p.1, none) else p) = p := by
    rw [if_neg]
    intro hc
    rw [hpe] at hc
    exact hne (Option.some.inj hc)
  refine ⟨p, ?_, hpe⟩
  have h2 : (if p.2 = some event_id then (p.1, none) else p)
      ∈ l.map (fun p => if p.2 = some event_id then (p.1, none) else p) :=
    List.mem_map_of_mem (fun p => if p.2 = some event_id then (p.1, none) else p) hp
  rwa [hfix] at h2

theorem hasId_addSlotsLoop {event_id : EventId} {s e : Time} :
    ∀ {l : Slots} {x : EventId},
      hasId (addSlotsLoop event_id s e l).1 x → hasId l x ∨ x = event_id := by
  intro l
  induction l with
  | nil =>
    intro x h
    obtain ⟨p, hp, _⟩ := h
    simp [addSlotsLoop] at hp
  | cons q rest ih =>
    intro x h
    obtain ⟨t, v⟩ := q
    by_cases hr : s ≤ t ∧ t < e
    · cases v with
      | some w =>
        simp only [addSlotsLoop, if_pos hr] at h
        exact Or.inl h
      | none =>
        simp only [addSlotsLoop, if_pos hr] at h
        obtain ⟨p, hp, hpe⟩ := h
        rcases List.mem_cons.mp hp with rfl | hp2
        · right
          exact (Option.some.inj hpe).symm
        · rcases ih ⟨p, hp2, hpe⟩ with h1 | h2
          · left
            obtain ⟨p2, hp3, hpe2⟩ := h1
            exact ⟨p2, List.mem_cons_of_mem _ hp3, hpe2⟩
          · right
            exact h2
    · simp only [addSlotsLoop, if_neg hr] at h
      obtain ⟨p, hp, hpe⟩ := h
      rcases List.mem_cons.mp hp with rfl | hp2
      · exact Or.inl ⟨(t, v), List.mem_cons_self _ _, hpe⟩
      · rcases ih ⟨p, hp2, hpe⟩ with h1 | h2
        · left
          obtain ⟨p2, hp3, hpe2⟩ := h1
          exact ⟨p2, List.mem_cons_of_mem _ hp3, hpe2⟩
        · right
          exact h2

theorem hasId_addSlotsLoop_mono {event_id : EventId} {s e : Time} :
    ∀ {l : Slots} {x : EventId},
      hasId l x → hasId (addSlotsLoop event_id s e l).1 x := by
  intro l
  induction l with
  | nil =>
    intro x h
    obtain ⟨p, hp, _⟩ := h
    simp at hp
  | cons q rest ih =>
    intro x h
    obtain ⟨t, v⟩ := q
    obtain ⟨p, hp, hpe⟩ := h
    by_cases hr : s ≤ t ∧ t < e
    · cases v with
      | some w =>
        simp only [addSlotsLoop, if_pos hr]
        exact ⟨p, hp, hpe⟩
      | none =>
        simp only [addSlotsLoop, if_pos hr]
        rcases List.mem_cons.mp hp with rfl | hp2
        · simp at hpe
        · obtain ⟨p2, hp3, hpe2⟩ := ih ⟨p, hp2, hpe⟩
          exact ⟨p2, List.mem_cons_of_mem _ hp3, hpe2⟩
    · simp only [addSlotsLoop, if_neg hr]
      rcases List.mem_cons.mp hp with rfl | hp2
      · exact ⟨(t, v), List.mem_cons_self _ _, hpe⟩
      · obtain ⟨p2, hp3, hpe2⟩ := ih ⟨p, hp2, hpe⟩
        exact ⟨p2, List.mem_cons_of_mem _ hp3, hpe2⟩

theorem hasId_updateSlotsLoop {event_id : EventId} {s e : Time} :
    ∀ {l : Slots} {x : EventId},
      hasId (updateSlotsLoop event_id s e l).1 x → hasId l x ∨ x = event_id := by
  intro l
  induction l with
  | nil =>
    intro x h
    obtain ⟨p, hp, _⟩ := h
    simp [updateSlotsLoop] at hp
  | cons q rest ih =>
    intro x h
    obtain ⟨t, v⟩ := q
    by_cases hr : s ≤ t ∧ t < e
    · by_cases hv : pyTruthy v = true
      · simp only [updateSlotsLoop, if_pos hr, if_pos hv] at h
        exact Or.inl h
      · simp only [updateSlotsLoop, if_pos hr, if_neg hv] at h
        obtain ⟨p, hp, hpe⟩ := h
        rcases List.mem_cons.mp hp with rfl | hp2
        · right
          exact (Option.some.inj hpe).symm
        · rcases ih ⟨p, hp2, hpe⟩ with h1 | h2
          · left
            obtain ⟨p2, hp3, hpe2⟩ := h1
            exact ⟨p2, List.mem_cons_of_mem _ hp3, hpe2⟩
          · right
            exact h2
    · simp only [updateSlotsLoop, if_neg hr] at h
      obtain ⟨p, hp, hpe⟩ := h
      rcases List.mem_cons.mp hp with rfl | hp2
      · exact Or.inl ⟨(t, v), List.mem_cons_self _ _, hpe⟩
      · rcases ih ⟨p, hp2, hpe⟩ with h1 | h2
        · left
          obtain ⟨p2, hp3, hpe2⟩ := h1
          exact ⟨p2, List.mem_cons_of_mem _ hp3, hpe2⟩
        · right
          exact h2

/-! ### Forall₂ machinery for the day loops -/

theorem forall2_mem_right {α β : Type} {R : α → β → Prop} :
    ∀ {l : List α} {l' : List β}, List.Forall₂ R l l' → ∀ {b : β}, b ∈ l' →
      ∃ a ∈ l, R a b := by
  intro l l' h
  induction h with
  | nil => intro b hb; simp at hb
  | cons hR hf ih =>
    intro b hb
    rcases List.mem_cons.mp hb with rfl | hb2
    · exact ⟨_, List.mem_cons_self _ _, hR⟩
    · obtain ⟨a, ha, hab⟩ := ih hb2
      exact ⟨a, List.mem_cons_of_mem _ ha, hab⟩

theorem forall2_keys_eq {R : (Date × Day) → (Date × Day) → Prop}
    (hkey : ∀ p q, R p q → p.1 = q.1) :
    ∀ {l l' : List (Date × Day)}, List.Forall₂ R l l' →
      l'.map Prod.fst = l.map Prod.fst := by
  intro l l' h
  induction h with
  | nil => rfl
  | cons hR hf ih =>
    rw [List.map_cons, List.map_cons, ih, hkey _ _ hR]

theorem forall2_day_refl :
    ∀ l : List (Date × Day),
      List.Forall₂ (fun p q => p.1 = q.1 ∧
        ∀ x, dayHas q.2 x = true → dayHas p.2 x = true) l l := by
  intro l
  induction l with
  | nil => exact List.Forall₂.nil
  | cons dd rest ih => exact List.Forall₂.cons ⟨rfl, fun _ h => h⟩ ih

theorem atMostOne_transfer {R : (Date × Day) → (Date × Day) → Prop}
    (_hkey : ∀ p q, R p q → p.1 = q.1)
    (hhas : ∀ p q, R p q → ∀ x, dayHas q.2 x = true → dayHas p.2 x = true) :
    ∀ {l l' : List (Date × Day)}, List.Forall₂ R l l' →
      (l.map Prod.fst).Nodup →
      (∀ (x : EventId) dd1 dd2, dd1 ∈ l → dd2 ∈ l →
        dayHas dd1.2 x = true → dayHas dd2.2 x = true → dd1 = dd2) →
      ∀ (x : EventId) dd1 dd2, dd1 ∈ l' → dd2 ∈ l' →
        dayHas dd1.2 x = true → dayHas dd2.2 x = true → dd1 = dd2 := by
  intro l l' h
  induction h with
  | nil =>
    intro _ _ x dd1 dd2 h1 _ _ _
    simp at h1
  | @cons a b l l' hR hf ih =>
    intro hnd hone x dd1 dd2 h1 h2 hh1 hh2
    have hndtail : (l.map Prod.fst).Nodup := by
      rw [List.map_cons] at hnd
      exact hnd.of_cons
    have hanotin : a.1 ∉ l.map Prod.fst := by
      rw [List.map_cons, List.nodup_cons] at hnd
      exact hnd.1
    have honetail : ∀ (x : EventId) dd1 dd2, dd1 ∈ l → dd2 ∈ l →
        dayHas dd1.2 x = true → dayHas dd2.2 x = true → dd1 = dd2 :=
      fun x d1 d2 m1 m2 hx1 hx2 =>
        hone x d1 d2 (List.mem_cons_of_mem _ m1) (List.mem_cons_of_mem _ m2) hx1 hx2
    rcases List.mem_cons.mp h1 with rfl | h1t
    · rcases List.mem_cons.mp h2 with rfl | h2t
      · rfl
      · exfalso
        obtain ⟨a2, ha2, hR2⟩ := forall2_mem_right hf h2t
        have heq := hone x a a2 (List.mem_cons_self _ _) (List.mem_cons_of_mem _ ha2)
          (hhas _ _ hR x hh1) (hhas _ _ hR2 x hh2)
        rw [← heq] at ha2
        exact hanotin (List.mem_map_of_mem Prod.fst ha2)
    · rcases List.mem_cons.mp h2 with rfl | h2t
      · exfalso
        obtain ⟨a1, ha1, hR1⟩ := forall2_mem_right hf h1t
        have heq := hone x a1 a (List.mem_cons_of_mem _ ha1) (List.mem_cons_self _ _)
          (hhas _ _ hR1 x hh1) (hhas _ _ hR x hh2)
        rw [heq] at ha1
        exact hanotin (List.mem_map_of_mem Prod.fst ha1)
      · exact ih hndtail honetail x dd1 dd2 h1t h2t hh1 hh2

/-! ### Day-level occurrence lemmas -/

theorem dayHas_delete_event {day : Day} {event_id x : EventId}
    (h : dayHas (day.delete_event event_id).1 x = true) :
    dayHas day x = true ∧ x ≠ event_id := by
  rw [delete_event_shape] at h
  have h2 := (dayHas_true_iff _ _).mp h
  obtain ⟨h3, h4⟩ := hasId_clear h2
  exact ⟨(dayHas_true_iff _ _).mpr h3, h4⟩

theorem update_event_day_shape (day : Day) (event_id : EventId) (s e : Time) :
    day.update_event event_id s e
      = ({ day with slots := (updateSlotsLoop event_id s e
            (day.slots.map fun p => if p.2 = some event_id then (p.1, none) else p)).1 },
         (updateSlotsLoop event_id s e
            (day.slots.map fun p => if p.2 = some event_id then (p.1, none) else p)).2) := rfl

theorem dayHas_update_event {day : Day} {event_id : EventId} {s e : Time} {x : EventId}
    (h : dayHas (day.update_event event_id s e).1 x = true) :
    dayHas day x = true ∨ x = event_id := by
  rw [update_event_day_shape] at h
  have h2 := (dayHas_true_iff _ _).mp h
  rcases hasId_updateSlotsLoop h2 with h3 | h3
  · obtain ⟨h4, _⟩ := hasId_clear h3
    exact Or.inl ((dayHas_true_iff _ _).mpr h4)
  · exact Or.inr h3

/-! ### Structural lemmas for the day loops -/

theorem updateDaysLoop_forall2 (event_id : EventId) (s e : Time) :
    ∀ l : List (Date × Day),
      List.Forall₂ (fun p q => p.1 = q.1 ∧
        ∀ x, dayHas q.2 x = true → dayHas p.2 x = true)
        l (updateDaysLoop event_id s e l).1 := by
  intro l
  induction l with
  | nil => exact List.Forall₂.nil
  | cons dd rest ih =>
    obtain ⟨dt, day⟩ := dd
    by_cases hg : day.slots.any (fun p => p.2 = some event_id) = true
    · have hgd : dayHas day event_id = true := hg
      rcases hde : day.delete_event event_id with ⟨day1, err1⟩
      have herr1 : err1 = none := by
        have h2 := delete_event_err_none day event_id hgd
        rw [hde] at h2
        exact h2
      subst herr1
      rcases hup : day1.update_event event_id s e with ⟨day2, err2⟩
      have htrans : ∀ x, dayHas day2 x = true → dayHas day x = true := by
        intro x hx
        have hx2 : dayHas (day1.update_event event_id s e).1 x = true := by
          rw [hup]
          exact hx
        rcases dayHas_update_event hx2 with h1 | h1
        · have hd1 : dayHas (day.delete_event event_id).1 x = true := by
            rw [hde]
            exact h1
          exact (dayHas_delete_event hd1).1
        · rw [h1]
          exact hgd
      cases err2 with
      | some er =>
        simp only [updateDaysLoop, if_pos hg, hde, hup]
        exact List.Forall₂.cons ⟨rfl, htrans⟩ (forall2_day_refl rest)
      | none =>
        simp only [updateDaysLoop, if_pos hg, hde, hup]
        exact List.Forall₂.cons ⟨rfl, htrans⟩ ih
    · simp only [updateDaysLoop, if_neg hg]
      exact List.Forall₂.cons ⟨rfl, fun _ h => h⟩ ih

theorem deleteDaysLoop_forall2 (event_id : EventId) :
    ∀ l : List (Date × Day),
      List.Forall₂ (fun p q => p.1 = q.1 ∧
        ∀ x, dayHas q.2 x = true → dayHas p.2 x = true)
        l (deleteDaysLoop event_id l).1 := by
  intro l
  induction l with
  | nil => exact List.Forall₂.nil
  | cons dd rest ih =>
    obtain ⟨dt, day⟩ := dd
    by_cases hg : day.slots.any (fun p => p.2 = some event_id) = true
    · simp only [deleteDaysLoop, if_pos hg]
      exact List.Forall₂.cons ⟨rfl, fun x hx => (dayHas_delete_event hx).1⟩
        (forall2_day_refl rest)
    · simp only [deleteDaysLoop, if_neg hg]
      exact List.Forall₂.cons ⟨rfl, fun _ h => h⟩ ih

theorem deleteDaysLoop_not_has (event_id : EventId) (l : List (Date × Day))
    (hnd : (l.map Prod.fst).Nodup)
    (hone : ∀ (x : EventId) dd1 dd2, dd1 ∈ l → dd2 ∈ l →
      dayHas dd1.2 x = true → dayHas dd2.2 x = true → dd1 = dd2) :
    ∀ dd' ∈ (deleteDaysLoop event_id l).1, dayHas dd'.2 event_id = false := by
  by_cases hall : ∀ dd ∈ l, dayHas dd.2 event_id = false
  · rw [deleteDaysLoop_all_false event_id l hall]
    exact hall
  · obtain ⟨pre, k, day, post, heq, hpre, hday⟩ := exists_first_has event_id l hall
    rw [heq, deleteDaysLoop_decomp event_id pre k day post hpre hday]
    intro dd' hdd'
    rcases List.mem_append.mp hdd' with h1 | h2
    · exact hpre dd' h1
    · rcases List.mem_cons.mp h2 with rfl | h3
      · rw [← Bool.not_eq_true]
        intro hc
        exact (dayHas_delete_event hc).2 rfl
      · rw [← Bool.not_eq_true]
        intro hc
        have heq2 := hone event_id dd' (k, day)
          (heq ▸ List.mem_append_right _ (List.mem_cons_of_mem _ h3))
          (heq ▸ List.mem_append_right _ (List.mem_cons_self _ _)) hc hday
        have hkpost := nodup_keys_post pre k day post (heq ▸ hnd)
        have := hkpost dd' h3
        rw [heq2] at this
        exact this rfl

/-! ### Invariant preservation for each public operation -/

theorem dayHas_day_new (d : Date) (x : EventId) : dayHas (Day.new d) x = false := by
  rw [← Bool.not_eq_true]
  intro hc
  obtain ⟨p, hp, hpe⟩ := (dayHas_true_iff _ _).mp hc
  rw [initSlots_free p hp] at hpe
  exact Option.noConfusion hpe

theorem inv_empty : CalInv Calendar.empty := by
  refine ⟨List.nodup_nil, List.nodup_nil, ?_, ?_⟩
  · intro dd hdd
    simp [Calendar.empty] at hdd
  · intro x dd1 dd2 h1 _ _ _
    simp [Calendar.empty] at h1

theorem inv_events_reset (c : Calendar) (k : EventId) (ev' : Event)
    (hinv : CalInv c) (hpres : (dictGet c.events k).isSome = true) :
    CalInv ⟨c.days, dictSet c.events k ev'⟩ := by
  obtain ⟨hnd, hne, hreg, hone⟩ := hinv
  refine ⟨hnd, ?_, ?_, hone⟩
  · show ((dictSet c.events k ev').map Prod.fst).Nodup
    rw [dictSet_keys_present c.events k ev' hpres]
    exact hne
  · intro dd hdd p hp x hx
    show x ∈ (dictSet c.events k ev').map Prod.fst
    rw [dictSet_keys_present c.events k ev' hpres]
    exact hreg dd hdd p hp x hx

theorem inv_add_event (c : Calendar) (newId : EventId)
    (title description : String) (date_ : Date) (s e : Time)
    (hinv : CalInv c) (hfresh : dictGet c.events newId = none) :
    CalInv ⟨dictSet c.days date_ ({ c.dayFor date_ with slots := (addSlotsLoop newId s e (c.dayFor date_).slots).1 }), dictSet c.events newId ⟨title, description, date_, s, e, newId, []⟩⟩ := by
  obtain ⟨hnd, hne, hreg, hone⟩ := hinv
  have hfreshdays : ∀ dd ∈ c.days, dayHas dd.2 newId = false := by
    intro dd hdd
    rw [← Bool.not_eq_true]
    intro hc
    obtain ⟨p, hp, hpe⟩ := (dayHas_true_iff _ _).mp hc
    have hxk := hreg dd hdd p hp newId hpe
    have h2 := (dictGet_isSome_iff c.events newId).mpr hxk
    rw [hfresh] at h2
    simp at h2
  have hday1 : ∀ x, dayHas ({ c.dayFor date_ with slots := (addSlotsLoop newId s e (c.dayFor date_).slots).1 }) x = true →
      dayHas (c.dayFor date_) x = true ∨ x = newId := by
    intro x hx
    have h2 := (dayHas_true_iff _ _).mp hx
    rcases hasId_addSlotsLoop h2 with h3 | h3
    · exact Or.inl ((dayHas_true_iff _ _).mpr h3)
    · exact Or.inr h3
  have hday0 : ∀ x, dayHas (c.dayFor date_) x = true →
      ∃ dd ∈ c.days, dd.1 = date_ ∧ dayHas dd.2 x = true := by
    intro x hx
    cases hd : dictGet c.days date_ with
    | some d =>
      rw [dayFor_eq hd] at hx
      exact ⟨(date_, d), dictGet_mem hd, rfl, hx⟩
    | none =>
      rw [dayFor_eq_new hd, dayHas_day_new] at hx
      exact Bool.noConfusion hx
  refine ⟨nodup_keys_dictSet _ _ _ hnd, nodup_keys_dictSet _ _ _ hne, ?_, ?_⟩
  · intro dd hdd p hp x hx
    show x ∈ (dictSet c.events newId (⟨title, description, date_, s, e, newId, []⟩ : Event)).map Prod.fst
    rcases mem_dictSet hdd with heqd | ⟨hmem, _⟩
    · have hxd : dayHas dd.2 x = true := (dayHas_true_iff _ _).mpr ⟨p, hp, hx⟩
      rw [heqd] at hxd
      rcases hday1 x hxd with h3 | h3
      · obtain ⟨dd0, hdd0, _, hh0⟩ := hday0 x h3
        obtain ⟨q, hq, hqe⟩ := (dayHas_true_iff _ _).mp hh0
        exact mem_keys_dictSet_of (hreg dd0 hdd0 q hq x hqe)
      · rw [h3]
        exact mem_keys_dictSet_self _ _ _
    · exact mem_keys_dictSet_of (hreg dd hmem p hp x hx)
  · intro x dd1 dd2 h1 h2 hh1 hh2
    rcases mem_dictSet h1 with he1 | ⟨hm1, hk1⟩
    · rcases mem_dictSet h2 with he2 | ⟨hm2, hk2⟩
      · rw [he1, he2]
      · exfalso
        rw [he1] at hh1
        rcases hday1 x hh1 with h3 | h3
        · obtain ⟨dd0, hdd0, hdk, hh0⟩ := hday0 x h3
          have heq := hone x dd0 dd2 hdd0 hm2 hh0 hh2
          rw [heq] at hdk
          exact hk2 hdk
        · rw [h3] at hh2
          have := hfreshdays dd2 hm2
          rw [hh2] at this
          exact Bool.noConfusion this
    · rcases mem_dictSet h2 with he2 | ⟨hm2, hk2⟩
      · exfalso
        rw [he2] at hh2
        rcases hday1 x hh2 with h3 | h3
        · obtain ⟨dd0, hdd0, hdk, hh0⟩ := hday0 x h3
          have heq := hone x dd1 dd0 hm1 hdd0 hh1 hh0
          rw [← heq] at hdk
          exact hk1 hdk
        · rw [h3] at hh1
          have := hfreshdays dd1 hm1
          rw [hh1] at this
          exact Bool.noConfusion this
      · exact hone x dd1 dd2 hm1 hm2 hh1 hh2

theorem inv_delete_event (c : Calendar) (event_id : EventId)
    (hinv : CalInv c) :
    CalInv ⟨(deleteDaysLoop event_id c.days).1, dictRemove c.events event_id⟩ := by
  obtain ⟨hnd, hne, hreg, hone⟩ := hinv
  have hf2 := deleteDaysLoop_forall2 event_id c.days
  have hkeys := forall2_keys_eq (fun p q h => h.1) hf2
  refine ⟨?_, nodup_keys_dictRemove _ _ hne, ?_, ?_⟩
  · show (((deleteDaysLoop event_id c.days).1).map Prod.fst).Nodup
    rw [hkeys]
    exact hnd
  · intro dd' hdd' p hp x hx
    obtain ⟨dd, hdd, hR⟩ := forall2_mem_right hf2 hdd'
    have hh' : dayHas dd'.2 x = true := (dayHas_true_iff _ _).mpr ⟨p, hp, hx⟩
    have hh : dayHas dd.2 x = true := hR.2 x hh'
    obtain ⟨q, hq, hqe⟩ := (dayHas_true_iff _ _).mp hh
    have hxk := hreg dd hdd q hq x hqe
    have hxe : x ≠ event_id := by
      intro hc
      have hnot := deleteDaysLoop_not_has event_id c.days hnd hone dd' hdd'
      rw [← hc, hh'] at hnot
      exact Bool.noConfusion hnot
    exact mem_keys_dictRemove hxk hxe
  · exact atMostOne_transfer (fun p q h => h.1) (fun p q h => h.2) hf2 hnd hone

theorem inv_update_samedate (c : Calendar) (event_id : EventId) (s e : Time)
    (ev' : Event) (hinv : CalInv c)
    (hpres : (dictGet c.events event_id).isSome = true) :
    CalInv ⟨(updateDaysLoop event_id s e c.days).1, dictSet c.events event_id ev'⟩ := by
  obtain ⟨hnd, hne, hreg, hone⟩ := hinv
  have hf2 := updateDaysLoop_forall2 event_id s e c.days
  have hkeys := forall2_keys_eq (fun p q h => h.1) hf2
  refine ⟨?_, ?_, ?_, ?_⟩
  · show (((updateDaysLoop event_id s e c.days).1).map Prod.fst).Nodup
    rw [hkeys]
    exact hnd
  · show ((dictSet c.events event_id ev').map Prod.fst).Nodup
    rw [dictSet_keys_present c.events event_id ev' hpres]
    exact hne
  · intro dd' hdd' p hp x hx
    obtain ⟨dd, hdd, hR⟩ := forall2_mem_right hf2 hdd'
    have hh : dayHas dd.2 x = true := hR.2 x ((dayHas_true_iff _ _).mpr ⟨p, hp, hx⟩)
    obtain ⟨q, hq, hqe⟩ := (dayHas_true_iff _ _).mp hh
    show x ∈ (dictSet c.events event_id ev').map Prod.fst
    rw [dictSet_keys_present c.events event_id ev' hpres]
    exact hreg dd hdd q hq x hqe
  · exact atMostOne_transfer (fun p q h => h.1) (fun p q h => h.2) hf2 hnd hone

/-! ### The invariant holds in every success-only reachable state -/

theorem calInv_of_reachableOk : ∀ {c : Calendar}, ReachableOk c → CalInv c := by
  intro c h
  induction h with
  | init => exact inv_empty
  | @step c c' op hre hfresh happ ih =>
    cases op with
    | addEvent today newId title description date_ s e =>
      have herr : (c.add_event today newId title description date_ s e).2.1 = none :=
        congrArg Prod.snd happ
      have hc' : c' = (c.add_event today newId title description date_ s e).1 :=
        (congrArg Prod.fst happ).symm
      subst hc'
      have hpast : ¬ date_ < today := by
        intro hlt
        rw [add_event_past_shape c today newId title description date_ s e hlt] at herr
        simp at herr
      have hir : (addSlotsLoop newId s e (c.dayFor date_).slots).2 = none := by
        rcases addSlotsLoop_err_cases newId s e (c.dayFor date_).slots with h2 | h2
        · exact h2
        · exfalso
          rw [add_event_shape_error c today newId title description date_ s e
            CalError.slotNotAvailable hpast h2] at herr
          simp at herr
      rw [add_event_shape_ok c today newId title description date_ s e hpast hir]
      exact inv_add_event c newId title description date_ s e ih hfresh
    | addReminder event_id dt ty =>
      cases hev : dictGet c.events event_id with
      | none =>
        exfalso
        have hshape : c.add_reminder event_id dt ty = (c, some CalError.eventNotFound) := by
          simp only [Calendar.add_reminder, hev]
        have h2 : (c.add_reminder event_id dt ty).2 = none := congrArg Prod.snd happ
        rw [hshape] at h2
        simp at h2
      | some ev =>
        have hshape : c.add_reminder event_id dt ty
            = ({ c with events := dictSet c.events event_id (ev.add_reminder dt ty) }, none) := by
          simp only [Calendar.add_reminder, hev]
        have hc' : c' = { c with events := dictSet c.events event_id (ev.add_reminder dt ty) } := by
          have h1 : (c.add_reminder event_id dt ty).1 = c' := congrArg Prod.fst happ
          rw [hshape] at h1
          exact h1.symm
        subst hc'
        exact inv_events_reset c event_id (ev.add_reminder dt ty) ih (by rw [hev]; rfl)
    | updateEvent event_id title description date_ s e =>
      cases hev : dictGet c.events event_id with
      | none =>
        exfalso
        have hshape : c.update_event event_id title description date_ s e
            = (c, some CalError.eventNotFound) := by
          simp only [Calendar.update_event, hev]
        have h2 : (c.update_event event_id title description date_ s e).2 = none :=
          congrArg Prod.snd happ
        rw [hshape] at h2
        simp at h2
      | some ev =>
        have hc' : c' = (c.update_event event_id title description date_ s e).1 :=
          (congrArg Prod.fst happ).symm
        subst hc'
        by_cases hdd : ev.date_ ≠ date_
        · rw [update_event_shape_newdate c event_id title description date_ s e ev hev hdd]
          exact inv_add_event ⟨(deleteDaysLoop event_id c.days).1, dictRemove c.events event_id⟩
            event_id title description date_ s e
            (inv_delete_event c event_id ih)
            (dictGet_dictRemove_self _ _)
        · rw [update_event_shape_samedate c event_id title description date_ s e ev hev hdd]
          exact inv_update_samedate c event_id s e ({ ev with title := title, description := description, date_ := date_, start_at := s, end_at := e }) ih (by rw [hev]; rfl)
    | deleteEvent event_id =>
      by_cases hev : (dictGet c.events event_id).isNone = true
      · exfalso
        have hshape : c.delete_event event_id = (c, some CalError.eventNotFound) := by
          simp only [Calendar.delete_event, if_pos hev]
        have h2 : (c.delete_event event_id).2 = none := congrArg Prod.snd happ
        rw [hshape] at h2
        simp at h2
      · have hc' : c' = (c.delete_event event_id).1 := (congrArg Prod.fst happ).symm
        subst hc'
        rw [delete_event_pair c event_id hev]
        exact inv_delete_event c event_id ih
    | deleteReminder event_id i =>
      cases hev : dictGet c.events event_id with
      | none =>
        exfalso
        have hshape : c.delete_reminder event_id i = (c, some CalError.eventNotFound) := by
          simp only [Calendar.delete_reminder, hev]
        have h2 : (c.delete_reminder event_id i).2 = none := congrArg Prod.snd happ
        rw [hshape] at h2
        simp at h2
      | some ev =>
        have hshape : c.delete_reminder event_id i
            = ({ c with events := dictSet c.events event_id (ev.delete_reminder i).1 },
               (ev.delete_reminder i).2) := by
          simp only [Calendar.delete_reminder, hev]
        have hc' : c' = { c with events := dictSet c.events event_id (ev.delete_reminder i).1 } := by
          have h1 : (c.delete_reminder event_id i).1 = c' := congrArg Prod.fst happ
          rw [hshape] at h1
          exact h1.symm
        subst hc'
        exact inv_events_reset c event_id (ev.delete_reminder i).1 ih (by rw [hev]; rfl)

/-- C1 (amended): in every Calendar state reachable from the empty Calendar
by public operations that all succeed — with `add_event` consuming ids as
`generate_unique_id`'s uniqueness contract guarantees — every event id stored
in any Day's slots is a key of the events registry.  (As literally stated,
over all operation sequences including ones whose raised errors the caller
survives, the claim is false: see the counterexample.) -/
theorem reachable_slot_ids_registered (c : Calendar) (h : ReachableOk c) :
    slotIdsRegistered c :=
  (calInv_of_reachableOk h).2.2.1

/-- Witness for C1 at a concrete reachable state. -/
theorem reachable_slot_ids_registered_witness :
    slotIdsRegistered (Calendar.empty.add_event 0 "a" "T" "D" 0 15 30).1 := by
  apply reachable_slot_ids_registered
  refine ReachableOk.step (COp.addEvent 0 "a" "T" "D" 0 15 30) ReachableOk.init
    (show dictGet Calendar.empty.events "a" = none from rfl) ?_
  show ((Calendar.empty.add_event 0 "a" "T" "D" 0 15 30).1,
        (Calendar.empty.add_event 0 "a" "T" "D" 0 15 30).2.1)
      = ((Calendar.empty.add_event 0 "a" "T" "D" 0 15 30).1, none)
  rw [show (Calendar.empty.add_event 0 "a" "T" "D" 0 15 30).2.1 = none by decide]

end CalendarApp
